import Mathlib

/-!
Verification of the per-document lifecycle and storage layer of the
Deepseek-Article-Analyzer repository.

The definitions below are a shallow embedding of the TypeScript sources:
* `playground/src/utils/storage.ts` (the local Document Record Store:
  `PaperInfo`, `savePapers`/`loadPapers` become explicit list-passing,
  `addPapers`, `updatePaper`, `deletePaper`, `getPaperByOssKey`,
  `getPapersByStatus`, `getAllPapers`, `getStatusStats`),
* `playground/src/pages/MinerUExtract.tsx` (`handleStartParse`: the
  extraction orchestration for one paper, with its submit / poll /
  download / markdown / OSS-delete collaborator calls turned into an
  explicit environment of call results, and every store mutation it
  performs emitted as an explicit action),
* `playground/src/pages/DeepSeekAnalysis.tsx` (`handleStartAllAnalysis`:
  the batch analysis starter),
* the backend Task Registry (modelled from the spec, see `TaskRegistry`).

External collaborators (HTTP calls, timers, `Date` parsing) are modelled
as oracles passed in explicitly; `localStorage` is modelled as the list
of records it holds.
-/

namespace PaperPipeline

/-- The eight document statuses of `storage.ts` (`PaperStatus`). -/
inductive PaperStatus where
  | uploading
  | uploaded
  | parsing
  | downloading
  | extracted
  | analyzing
  | done
  | error
deriving DecidableEq

/-- One document record (`PaperInfo` in `storage.ts`).  Optional fields of
the TypeScript interface are `Option`s. -/
structure PaperInfo where
  oss_key : String
  oss_url : String
  filename : String
  size : Option Nat
  task_id : Option String
  status : PaperStatus
  markdown_content : Option String
  error : Option String
  uploaded_at : Option String
  extracted_at : Option String
deriving DecidableEq

/-- A `Partial<PaperInfo>` as passed to `updatePaper`: a field is `some v`
exactly when the update names it (no call site in the source ever names a
field with value `undefined`). -/
structure PaperUpdates where
  oss_key : Option String := none
  oss_url : Option String := none
  filename : Option String := none
  size : Option Nat := none
  task_id : Option String := none
  status : Option PaperStatus := none
  markdown_content : Option String := none
  error : Option String := none
  uploaded_at : Option String := none
  extracted_at : Option String := none
deriving DecidableEq

/-- The object spread `{ ...papers[index], ...updates }` of
`updatePaper`: a field named in `updates` wins, any other field is taken
from the existing record. -/
def applyUpdates (p : PaperInfo) (u : PaperUpdates) : PaperInfo where
  oss_key := u.oss_key.getD p.oss_key
  oss_url := u.oss_url.getD p.oss_url
  filename := u.filename.getD p.filename
  size := match u.size with | some v => some v | none => p.size
  task_id := match u.task_id with | some v => some v | none => p.task_id
  status := u.status.getD p.status
  markdown_content :=
    match u.markdown_content with | some v => some v | none => p.markdown_content
  error := match u.error with | some v => some v | none => p.error
  uploaded_at := match u.uploaded_at with | some v => some v | none => p.uploaded_at
  extracted_at := match u.extracted_at with | some v => some v | none => p.extracted_at

/-- The `updatePaper` operation of `storage.ts`: find the first record with the given
`oss_key` (`findIndex`), replace it by the spread-merge, save; when no
record matches, the stored list is left as it was. -/
def updatePaper (ossKey : String) (updates : PaperUpdates)
    (papers : List PaperInfo) : List PaperInfo :=
  match papers.findIdx? (fun p => p.oss_key == ossKey) with
  | none => papers
  | some index =>
    match papers[index]? with
    | none => papers
    | some p => papers.set index (applyUpdates p updates)

/-- The `deletePaper` operation of `storage.ts`: drop every record with the given key. -/
def deletePaper (ossKey : String) (papers : List PaperInfo) : List PaperInfo :=
  papers.filter (fun p => p.oss_key != ossKey)

/-- The `getPaperByOssKey` lookup of `storage.ts`. -/
def getPaperByOssKey (ossKey : String) (papers : List PaperInfo) :
    Option PaperInfo :=
  papers.find? (fun p => p.oss_key == ossKey)

/-- The `getPapersByStatus` filter of `storage.ts`. -/
def getPapersByStatus (status : PaperStatus) (papers : List PaperInfo) :
    List PaperInfo :=
  papers.filter (fun p => p.status == status)

/-- The record of counts returned by `getStatusStats`. -/
structure StatusStats where
  total : Nat
  uploading : Nat
  uploaded : Nat
  parsing : Nat
  downloading : Nat
  extracted : Nat
  analyzing : Nat
  done : Nat
  error : Nat
deriving DecidableEq

/-- The `getStatusStats` operation of `storage.ts`: the length of the stored
list plus one `filter`-count per status. -/
def getStatusStats (papers : List PaperInfo) : StatusStats where
  total := papers.length
  uploading := (papers.filter (fun p => p.status == .uploading)).length
  uploaded := (papers.filter (fun p => p.status == .uploaded)).length
  parsing := (papers.filter (fun p => p.status == .parsing)).length
  downloading := (papers.filter (fun p => p.status == .downloading)).length
  extracted := (papers.filter (fun p => p.status == .extracted)).length
  analyzing := (papers.filter (fun p => p.status == .analyzing)).length
  done := (papers.filter (fun p => p.status == .done)).length
  error := (papers.filter (fun p => p.status == .error)).length

/-- First-match-replacement characterisation of `updatePaper`, used by the
proofs below. -/
theorem updatePaper_cons (ossKey : String) (u : PaperUpdates) (p : PaperInfo)
    (ps : List PaperInfo) :
    updatePaper ossKey u (p :: ps) =
      if p.oss_key == ossKey then applyUpdates p u :: ps
      else p :: updatePaper ossKey u ps := by
  by_cases h : p.oss_key == ossKey
  · simp [updatePaper, List.findIdx?_cons, h]
  · have h' : (p.oss_key == ossKey) = false := by
      simpa using h
    simp only [updatePaper, List.findIdx?_cons, h', Bool.false_eq_true,
      if_false, List.findIdx?_succ]
    cases hfi : List.findIdx? (fun q => q.oss_key == ossKey) ps with
    | none => simp
    | some i =>
      simp only [Option.map_some', List.getElem?_cons_succ]
      cases hq : ps[i]? with
      | none => simp
      | some q => simp [List.set_cons_succ]

theorem updatePaper_nil (ossKey : String) (u : PaperUpdates) :
    updatePaper ossKey u [] = [] := rfl

theorem updatePaper_length (ossKey : String) (u : PaperUpdates)
    (papers : List PaperInfo) :
    (updatePaper ossKey u papers).length = papers.length := by
  induction papers with
  | nil => rfl
  | cons p ps ih =>
    rw [updatePaper_cons]
    by_cases h : p.oss_key == ossKey <;> simp [h, ih]

theorem updatePaper_of_no_match (ossKey : String) (u : PaperUpdates)
    (papers : List PaperInfo) (h : ∀ p ∈ papers, p.oss_key ≠ ossKey) :
    updatePaper ossKey u papers = papers := by
  induction papers with
  | nil => rfl
  | cons p ps ih =>
    rw [updatePaper_cons]
    have hp : (p.oss_key == ossKey) = false := by
      simpa using h p (by simp)
    simp only [hp, Bool.false_eq_true, if_false]
    rw [ih (fun q hq => h q (by simp [hq]))]

theorem updatePaper_getElem?_ne (ossKey : String) (u : PaperUpdates)
    (papers : List PaperInfo) (i : Nat) (p : PaperInfo)
    (hp : papers[i]? = some p) (hne : p.oss_key ≠ ossKey) :
    (updatePaper ossKey u papers)[i]? = some p := by
  induction papers generalizing i with
  | nil => simp at hp
  | cons q ps ih =>
    rw [updatePaper_cons]
    by_cases hq : q.oss_key == ossKey
    · cases i with
      | zero =>
        simp only [List.getElem?_cons_zero, Option.some.injEq] at hp
        subst hp
        exact absurd (by simpa using hq) hne
      | succ j => simpa [hq] using hp
    · have hq' : (q.oss_key == ossKey) = false := by simpa using hq
      cases i with
      | zero => simpa [hq'] using hp
      | succ j =>
        simp only [List.getElem?_cons_succ] at hp
        simp [hq', ih j hp]

theorem updatePaper_getElem?_shape (ossKey : String) (u : PaperUpdates)
    (papers : List PaperInfo) (i : Nat) (p : PaperInfo)
    (hp : (updatePaper ossKey u papers)[i]? = some p) :
    ∃ q, papers[i]? = some q ∧ (p = q ∨ p = applyUpdates q u) := by
  induction papers generalizing i with
  | nil => simp [updatePaper_nil] at hp
  | cons q ps ih =>
    rw [updatePaper_cons] at hp
    by_cases hq : q.oss_key == ossKey
    · simp only [hq, if_true] at hp
      cases i with
      | zero =>
        simp only [List.getElem?_cons_zero, Option.some.injEq] at hp
        exact ⟨q, by simp, Or.inr hp.symm⟩
      | succ j =>
        simp only [List.getElem?_cons_succ] at hp ⊢
        exact ⟨p, hp, Or.inl rfl⟩
    · have hq' : (q.oss_key == ossKey) = false := by simpa using hq
      simp only [hq', Bool.false_eq_true, if_false] at hp
      cases i with
      | zero =>
        simp only [List.getElem?_cons_zero, Option.some.injEq] at hp ⊢
        exact ⟨q, rfl, Or.inl hp.symm⟩
      | succ j =>
        simp only [List.getElem?_cons_succ] at hp ⊢
        exact ih j hp

theorem applyUpdates_frame (p : PaperInfo) (u : PaperUpdates) :
    (u.oss_key = none → (applyUpdates p u).oss_key = p.oss_key) ∧
    (u.oss_url = none → (applyUpdates p u).oss_url = p.oss_url) ∧
    (u.filename = none → (applyUpdates p u).filename = p.filename) ∧
    (u.size = none → (applyUpdates p u).size = p.size) ∧
    (u.task_id = none → (applyUpdates p u).task_id = p.task_id) ∧
    (u.status = none → (applyUpdates p u).status = p.status) ∧
    (u.markdown_content = none →
      (applyUpdates p u).markdown_content = p.markdown_content) ∧
    (u.error = none → (applyUpdates p u).error = p.error) ∧
    (u.uploaded_at = none → (applyUpdates p u).uploaded_at = p.uploaded_at) ∧
    (u.extracted_at = none → (applyUpdates p u).extracted_at = p.extracted_at) := by
  refine ⟨?_, ?_, ?_, ?_, ?_, ?_, ?_, ?_, ?_, ?_⟩ <;>
    (intro h; simp [applyUpdates, h])

/-- Claim C8: `updatePaper ossKey u` leaves every record whose `oss_key`
differs from `ossKey` unchanged (same position, same contents), returns a
list of the same length, only ever replaces a record by the spread-merge
of that same record with the updates, keeps the store completely
unchanged when no record has the given key, and the spread-merge leaves
every field not named in the updates unchanged. -/
theorem claim_C8_updatePaper_frame (papers : List PaperInfo) (ossKey : String)
    (u : PaperUpdates) :
    ((∀ p ∈ papers, p.oss_key ≠ ossKey) → updatePaper ossKey u papers = papers) ∧
    (updatePaper ossKey u papers).length = papers.length ∧
    (∀ (i : Nat) (p : PaperInfo), papers[i]? = some p → p.oss_key ≠ ossKey →
      (updatePaper ossKey u papers)[i]? = some p) ∧
    (∀ (i : Nat) (p : PaperInfo), (updatePaper ossKey u papers)[i]? = some p →
      ∃ q, papers[i]? = some q ∧ (p = q ∨ p = applyUpdates q u)) ∧
    (∀ p : PaperInfo,
      (u.status = none → (applyUpdates p u).status = p.status) ∧
      (u.task_id = none → (applyUpdates p u).task_id = p.task_id) ∧
      (u.markdown_content = none →
        (applyUpdates p u).markdown_content = p.markdown_content) ∧
      (u.error = none → (applyUpdates p u).error = p.error) ∧
      (u.uploaded_at = none → (applyUpdates p u).uploaded_at = p.uploaded_at) ∧
      (u.extracted_at = none → (applyUpdates p u).extracted_at = p.extracted_at) ∧
      (u.oss_key = none → (applyUpdates p u).oss_key = p.oss_key) ∧
      (u.oss_url = none → (applyUpdates p u).oss_url = p.oss_url) ∧
      (u.filename = none → (applyUpdates p u).filename = p.filename) ∧
      (u.size = none → (applyUpdates p u).size = p.size)) := by
  refine ⟨updatePaper_of_no_match ossKey u papers,
    updatePaper_length ossKey u papers,
    fun i p hp hne => updatePaper_getElem?_ne ossKey u papers i p hp hne,
    fun i p hp => updatePaper_getElem?_shape ossKey u papers i p hp,
    fun p => ?_⟩
  obtain ⟨h1, h2, h3, h4, h5, h6, h7, h8, h9, h10⟩ := applyUpdates_frame p u
  exact ⟨h6, h5, h7, h8, h9, h10, h1, h2, h3, h4⟩

/-- A paper record used by the concrete witnesses below. -/
def paperA : PaperInfo where
  oss_key := "papers/a.pdf"
  oss_url := "https://oss.example/a.pdf"
  filename := "a.pdf"
  size := some 100
  task_id := none
  status := .uploaded
  markdown_content := none
  error := none
  uploaded_at := some "2026-01-01T00:00:00.000Z"
  extracted_at := none

/-- A second paper record used by the concrete witnesses below. -/
def paperB : PaperInfo where
  oss_key := "papers/b.pdf"
  oss_url := "https://oss.example/b.pdf"
  filename := "b.pdf"
  size := none
  task_id := none
  status := .extracted
  markdown_content := some "# B"
  error := none
  uploaded_at := none
  extracted_at := some "2026-01-02T00:00:00.000Z"

/-- Witness for C8 at a concrete store: updating the status of `paperA` leaves
`paperB` (a record with a different key) unchanged, and leaves the fields
of `paperA` that the update does not name unchanged. -/
theorem claim_C8_witness :
    (updatePaper "papers/a.pdf" { status := some .parsing } [paperA, paperB])[1]? =
      some paperB ∧
    (applyUpdates paperA { status := some .parsing }).filename = paperA.filename := by
  constructor
  · exact (claim_C8_updatePaper_frame [paperA, paperB] "papers/a.pdf"
      { status := some .parsing }).2.2.1 1 paperB (by decide) (by decide)
  · exact ((claim_C8_updatePaper_frame [paperA, paperB] "papers/a.pdf"
      { status := some .parsing }).2.2.2.2 paperA).2.2.2.2.2.2.2.2.1 rfl

theorem length_eq_statusCountSum (papers : List PaperInfo) :
    papers.length =
      (papers.filter (fun p => p.status == PaperStatus.uploading)).length +
      (papers.filter (fun p => p.status == PaperStatus.uploaded)).length +
      (papers.filter (fun p => p.status == PaperStatus.parsing)).length +
      (papers.filter (fun p => p.status == PaperStatus.downloading)).length +
      (papers.filter (fun p => p.status == PaperStatus.extracted)).length +
      (papers.filter (fun p => p.status == PaperStatus.analyzing)).length +
      (papers.filter (fun p => p.status == PaperStatus.done)).length +
      (papers.filter (fun p => p.status == PaperStatus.error)).length := by
  induction papers with
  | nil => rfl
  | cons p ps ih =>
    cases h : p.status <;>
      simp [List.filter_cons, h, List.length_cons, ih] <;> omega

/-- Claim C7: `getStatusStats` returns, for each of the eight statuses,
exactly the number of stored records with that status, a total equal to
the number of stored records, and the total equals the sum of the eight
per-status counts. -/
theorem claim_C7_getStatusStats (papers : List PaperInfo) :
    (getStatusStats papers).total = papers.length ∧
    (getStatusStats papers).uploading = (getPapersByStatus .uploading papers).length ∧
    (getStatusStats papers).uploaded = (getPapersByStatus .uploaded papers).length ∧
    (getStatusStats papers).parsing = (getPapersByStatus .parsing papers).length ∧
    (getStatusStats papers).downloading = (getPapersByStatus .downloading papers).length ∧
    (getStatusStats papers).extracted = (getPapersByStatus .extracted papers).length ∧
    (getStatusStats papers).analyzing = (getPapersByStatus .analyzing papers).length ∧
    (getStatusStats papers).done = (getPapersByStatus .done papers).length ∧
    (getStatusStats papers).error = (getPapersByStatus .error papers).length ∧
    (getStatusStats papers).total =
      (getStatusStats papers).uploading + (getStatusStats papers).uploaded +
      (getStatusStats papers).parsing + (getStatusStats papers).downloading +
      (getStatusStats papers).extracted + (getStatusStats papers).analyzing +
      (getStatusStats papers).done + (getStatusStats papers).error := by
  refine ⟨rfl, rfl, rfl, rfl, rfl, rfl, rfl, rfl, rfl, ?_⟩
  exact length_eq_statusCountSum papers

/-- Membership test of the key set of a JavaScript `Map` (`papersMap.has`),
on the association-list model of the `Map`. -/
def mapHas (m : List (String × PaperInfo)) (k : String) : Bool :=
  m.any (fun e => e.1 == k)

/-- Model of `papersMap.set(k, v)` on the association-list view of a
JavaScript `Map`: an existing key keeps its position and gets the new
value, a new key is appended (insertion order). -/
def mapSet (m : List (String × PaperInfo)) (k : String) (v : PaperInfo) :
    List (String × PaperInfo) :=
  if mapHas m k then m.map (fun e => if e.1 == k then (k, v) else e)
  else m ++ [(k, v)]

/-- The `addPapers` operation of `storage.ts`: build a `Map` from the
existing records, then add each incoming record only if its key is not
present, and store the values of the `Map` in insertion order. -/
def addPapers (papers : List PaperInfo) (existing : List PaperInfo) :
    List PaperInfo :=
  let papersMap := existing.foldl (fun m p => mapSet m p.oss_key p) []
  let papersMap2 := papers.foldl
    (fun m p => if mapHas m p.oss_key then m else mapSet m p.oss_key p) papersMap
  papersMap2.map (fun e => e.2)

/-- Key-membership on a plain list of keys, mirroring `mapHas`. -/
def hasKey (ks : List String) (k : String) : Bool :=
  ks.any (fun s => s == k)

/-- The sublist of `papers` that `addPapers` actually appends: the
records whose key is neither among `ks` nor among the keys of an earlier
appended record. -/
def newOnes (ks : List String) : List PaperInfo → List PaperInfo
  | [] => []
  | p :: ps =>
    if hasKey ks p.oss_key then newOnes ks ps
    else p :: newOnes (ks ++ [p.oss_key]) ps

theorem mapHas_eq_hasKey (m : List (String × PaperInfo)) (k : String) :
    mapHas m k = hasKey (m.map (fun e => e.1)) k := by
  rw [mapHas, hasKey]
  induction m with
  | nil => rfl
  | cons e es ih => simp only [List.map_cons, List.any_cons, ih]

theorem mapHas_append_single (m : List (String × PaperInfo)) (k : String)
    (v : PaperInfo) (q : String) (h1 : mapHas m q = false) (h2 : q ≠ k) :
    mapHas (m ++ [(k, v)]) q = false := by
  simp only [mapHas, List.any_append, Bool.or_eq_false_iff]
  refine ⟨h1, ?_⟩
  simp only [List.any_cons, List.any_nil, Bool.or_false]
  exact beq_eq_false_iff_ne.mpr (fun h => h2 h.symm)

theorem foldl_mapSet_fresh (l : List PaperInfo) :
    ∀ m : List (String × PaperInfo),
    (∀ p ∈ l, mapHas m p.oss_key = false) →
    (l.map (fun p => p.oss_key)).Nodup →
    l.foldl (fun m p => mapSet m p.oss_key p) m =
      m ++ l.map (fun p => (p.oss_key, p)) := by
  induction l with
  | nil => intro m _ _; simp
  | cons p ps ih =>
    intro m hfresh hnd
    have hp : mapHas m p.oss_key = false := hfresh p (by simp)
    have step : mapSet m p.oss_key p = m ++ [(p.oss_key, p)] := by
      simp [mapSet, hp]
    have hnd2 : (∀ x ∈ ps, ¬ x.oss_key = p.oss_key) ∧
        (ps.map (fun p => p.oss_key)).Nodup := by
      simpa using hnd
    have hfresh2 : ∀ q ∈ ps, mapHas (m ++ [(p.oss_key, p)]) q.oss_key = false := by
      intro q hq
      exact mapHas_append_single m p.oss_key p q.oss_key (hfresh q (by simp [hq]))
        (hnd2.1 q hq)
    rw [List.foldl_cons]
    show ps.foldl (fun m p => mapSet m p.oss_key p) (mapSet m p.oss_key p) =
      m ++ (p :: ps).map (fun p => (p.oss_key, p))
    rw [step, ih (m ++ [(p.oss_key, p)]) hfresh2 hnd2.2]
    simp

theorem foldl_addNew (l : List PaperInfo) :
    ∀ m : List (String × PaperInfo),
    l.foldl (fun m p => if mapHas m p.oss_key then m else mapSet m p.oss_key p) m =
      m ++ (newOnes (m.map (fun e => e.1)) l).map (fun p => (p.oss_key, p)) := by
  induction l with
  | nil => intro m; simp [newOnes]
  | cons p ps ih =>
    intro m
    by_cases hp : mapHas m p.oss_key
    · have hk : hasKey (m.map (fun e => e.1)) p.oss_key = true := by
        rw [← mapHas_eq_hasKey]; exact hp
      simp only [List.foldl_cons, hp, if_true, newOnes, hk]
      exact ih m
    · have hp' : mapHas m p.oss_key = false := by simpa using hp
      have hk : hasKey (m.map (fun e => e.1)) p.oss_key = false := by
        rw [← mapHas_eq_hasKey]; exact hp'
      have step : mapSet m p.oss_key p = m ++ [(p.oss_key, p)] := by
        simp [mapSet, hp']
      simp only [List.foldl_cons, hp', Bool.false_eq_true, if_false, step,
        newOnes, hk]
      rw [ih (m ++ [(p.oss_key, p)])]
      simp [List.append_assoc]

theorem newOnes_fresh_nodup (l : List PaperInfo) :
    ∀ ks : List String,
    (∀ q ∈ newOnes ks l, hasKey ks q.oss_key = false) ∧
    ((newOnes ks l).map (fun p => p.oss_key)).Nodup := by
  induction l with
  | nil => intro ks; simp [newOnes]
  | cons p ps ih =>
    intro ks
    by_cases hp : hasKey ks p.oss_key
    · simpa [newOnes, hp] using ih ks
    · have hp' : hasKey ks p.oss_key = false := by simpa using hp
      obtain ⟨ihfresh, ihnd⟩ := ih (ks ++ [p.oss_key])
      constructor
      · intro q hq
        simp only [newOnes, hp', Bool.false_eq_true, if_false,
          List.mem_cons] at hq
        rcases hq with rfl | hq
        · exact hp'
        · have := ihfresh q hq
          simp [hasKey, List.any_append] at this ⊢
          exact this.1
      · simp only [newOnes, hp', Bool.false_eq_true, if_false, List.map_cons]
        refine List.nodup_cons.mpr ⟨?_, ihnd⟩
        intro hmem
        obtain ⟨q, hq, hqk⟩ := List.mem_map.mp hmem
        have := ihfresh q hq
        simp [hasKey, List.any_append, hqk] at this

theorem newOnes_complete (l : List PaperInfo) :
    ∀ (ks : List String) (p : PaperInfo), p ∈ l →
    hasKey ks p.oss_key = true ∨
      p.oss_key ∈ (newOnes ks l).map (fun q => q.oss_key) := by
  induction l with
  | nil => intro ks p hp; simp at hp
  | cons a rest ih =>
    intro ks p hp
    by_cases ha : hasKey ks a.oss_key
    · rcases List.mem_cons.mp hp with rfl | hp'
      · exact Or.inl ha
      · simpa [newOnes, ha] using ih ks p hp'
    · have ha' : hasKey ks a.oss_key = false := by simpa using ha
      rcases List.mem_cons.mp hp with rfl | hp'
      · right
        simp [newOnes, ha']
      · rcases ih (ks ++ [a.oss_key]) p hp' with hk | hmem
        · simp only [hasKey, List.any_append, Bool.or_eq_true,
            List.any_cons, List.any_nil, Bool.or_false] at hk
          rcases hk with hk | hk
          · exact Or.inl hk
          · right
            have hpk : p.oss_key = a.oss_key := (eq_of_beq hk).symm
            simp only [newOnes, ha', Bool.false_eq_true, if_false,
              List.map_cons]
            simp [hpk]
        · right
          simp [newOnes, ha', hmem]

theorem newOnes_nil_of_all_present (l : List PaperInfo) :
    ∀ ks : List String, (∀ p ∈ l, hasKey ks p.oss_key = true) →
    newOnes ks l = [] := by
  induction l with
  | nil => intro ks _; rfl
  | cons a rest ih =>
    intro ks hall
    have ha : hasKey ks a.oss_key = true := hall a (by simp)
    simp only [newOnes, ha, if_true]
    exact ih ks (fun p hp => hall p (by simp [hp]))

theorem addPapers_eq (papers existing : List PaperInfo)
    (h : (existing.map (fun p => p.oss_key)).Nodup) :
    addPapers papers existing =
      existing ++ newOnes (existing.map (fun p => p.oss_key)) papers := by
  rw [addPapers]
  have h1 : existing.foldl (fun m p => mapSet m p.oss_key p) [] =
      existing.map (fun p => (p.oss_key, p)) := by
    simpa using foldl_mapSet_fresh existing [] (by intro p _; rfl) h
  rw [h1, foldl_addNew]
  simp [List.map_map, Function.comp_def]

/-- Claim C9: on a store whose keys are pairwise distinct (the data-model
invariant: `oss_key` is a unique identity), `addPapers` keeps every
already-stored record unchanged and in place, only appends incoming
records whose key is not already stored (an incoming paper whose
`oss_key` already exists is ignored, never overwrites), and is
idempotent. -/
theorem claim_C9_addPapers (existing papers : List PaperInfo)
    (h : (existing.map (fun p => p.oss_key)).Nodup) :
    addPapers papers existing =
      existing ++ newOnes (existing.map (fun p => p.oss_key)) papers ∧
    (∀ q ∈ newOnes (existing.map (fun p => p.oss_key)) papers,
      ∀ p ∈ existing, q.oss_key ≠ p.oss_key) ∧
    addPapers papers (addPapers papers existing) = addPapers papers existing := by
  set ks := existing.map (fun p => p.oss_key) with hks
  set fresh := newOnes ks papers with hfresh
  obtain ⟨freshFree, freshNd⟩ := newOnes_fresh_nodup papers ks
  have hmain := addPapers_eq papers existing h
  refine ⟨hmain, ?_, ?_⟩
  · intro q hq p hp hcontra
    have := freshFree q hq
    have hmem : p.oss_key ∈ ks := by
      rw [hks]
      exact List.mem_map_of_mem _ hp
    rw [hcontra] at this
    simp only [hasKey, List.any_eq_false] at this
    exact absurd (by simp) (this p.oss_key hmem)
  · have hnd1 : ((existing ++ fresh).map (fun p => p.oss_key)).Nodup := by
      rw [List.map_append]
      refine List.nodup_append.mpr ⟨h, freshNd, ?_⟩
      intro s hs hs2
      obtain ⟨q, hq, rfl⟩ := List.mem_map.mp hs2
      have := freshFree q hq
      simp only [hasKey, List.any_eq_false] at this
      exact absurd (by simp) (this q.oss_key hs)
    have h2 := addPapers_eq papers (existing ++ fresh) hnd1
    have hnil : newOnes ((existing ++ fresh).map (fun p => p.oss_key)) papers = [] := by
      refine newOnes_nil_of_all_present papers _ ?_
      intro p hp
      rcases newOnes_complete papers ks p hp with hk | hmem
      · simp only [List.map_append, hasKey, List.any_append, Bool.or_eq_true]
        left
        exact hk
      · simp only [List.map_append, hasKey, List.any_append, Bool.or_eq_true]
        right
        simp only [List.any_eq_true]
        exact ⟨p.oss_key, by simpa [hfresh] using hmem, by simp⟩
    rw [hmain, h2, hnil]
    simp

/-- Witness for C9 at a concrete store: adding a record whose key already
exists together with a genuinely new record keeps the stored records and
appends only the new one, and doing it twice changes nothing more. -/
theorem claim_C9_witness :
    addPapers [{ paperA with filename := "clash.pdf" }, paperB] [paperA] =
      [paperA] ++ newOnes ["papers/a.pdf"]
        [{ paperA with filename := "clash.pdf" }, paperB] ∧
    addPapers [{ paperA with filename := "clash.pdf" }, paperB]
        (addPapers [{ paperA with filename := "clash.pdf" }, paperB] [paperA]) =
      addPapers [{ paperA with filename := "clash.pdf" }, paperB] [paperA] := by
  have h := claim_C9_addPapers [paperA]
    [{ paperA with filename := "clash.pdf" }, paperB] (by decide)
  exact ⟨h.1, h.2.2⟩

/-- The sort key used by `getAllPapers`:
`a.uploaded_at ? new Date(a.uploaded_at).getTime() : 0`, with JavaScript
date parsing abstracted as an oracle `getTime`. -/
def paperTime (getTime : String → Nat) (p : PaperInfo) : Nat :=
  match p.uploaded_at with
  | some s => getTime s
  | none => 0

/-- One step of a stable descending-by-time sort: `p` is inserted before
the first element with a strictly smaller key, so elements with keys at
least as large (in particular equal keys, which the JavaScript comparator
`timeB - timeA` leaves in original order) stay in front. -/
def insertByTimeDesc (getTime : String → Nat) (p : PaperInfo) :
    List PaperInfo → List PaperInfo
  | [] => [p]
  | q :: qs =>
    if paperTime getTime p < paperTime getTime q then
      q :: insertByTimeDesc getTime p qs
    else p :: q :: qs

/-- The `getAllPapers` operation of `storage.ts`: the stored records sorted by
`uploaded_at` descending (stable, as `Array.prototype.sort` is). -/
def getAllPapers (getTime : String → Nat) (papers : List PaperInfo) :
    List PaperInfo :=
  papers.foldr (insertByTimeDesc getTime) []

theorem insertByTimeDesc_perm (getTime : String → Nat) (p : PaperInfo)
    (l : List PaperInfo) : (insertByTimeDesc getTime p l).Perm (p :: l) := by
  induction l with
  | nil => exact List.Perm.refl _
  | cons q qs ih =>
    rw [insertByTimeDesc]
    by_cases h : paperTime getTime p < paperTime getTime q
    · simp only [h, if_true]
      exact (ih.cons q).trans (List.Perm.swap p q qs)
    · simp only [h, if_false]
      exact List.Perm.refl _

theorem insertByTimeDesc_sorted (getTime : String → Nat) (p : PaperInfo)
    (l : List PaperInfo)
    (hl : l.Pairwise (fun a b => paperTime getTime b ≤ paperTime getTime a)) :
    (insertByTimeDesc getTime p l).Pairwise
      (fun a b => paperTime getTime b ≤ paperTime getTime a) := by
  induction l with
  | nil => simp [insertByTimeDesc]
  | cons q qs ih =>
    obtain ⟨hq, hqs⟩ := List.pairwise_cons.mp hl
    rw [insertByTimeDesc]
    by_cases h : paperTime getTime p < paperTime getTime q
    · simp only [h, if_true]
      refine List.pairwise_cons.mpr ⟨?_, ih hqs⟩
      intro r hr
      have : r ∈ p :: qs := (insertByTimeDesc_perm getTime p qs).mem_iff.mp hr
      rcases List.mem_cons.mp this with rfl | hr'
      · exact Nat.le_of_lt h
      · exact hq r hr'
    · simp only [h, if_false]
      refine List.pairwise_cons.mpr ⟨?_, hl⟩
      intro r hr
      rcases List.mem_cons.mp hr with rfl | hr'
      · exact Nat.le_of_not_lt h
      · exact Nat.le_trans (hq r hr') (Nat.le_of_not_lt h)

theorem getAllPapers_perm (getTime : String → Nat) (papers : List PaperInfo) :
    (getAllPapers getTime papers).Perm papers := by
  induction papers with
  | nil => exact List.Perm.refl _
  | cons p ps ih =>
    exact (insertByTimeDesc_perm getTime p _).trans (ih.cons p)

theorem getAllPapers_sorted (getTime : String → Nat) (papers : List PaperInfo) :
    (getAllPapers getTime papers).Pairwise
      (fun a b => paperTime getTime b ≤ paperTime getTime a) := by
  induction papers with
  | nil => simp [getAllPapers]
  | cons p ps ih => exact insertByTimeDesc_sorted getTime p _ ih

/-- Claim C10: `getAllPapers` returns a permutation of the stored records
sorted by `uploaded_at` timestamp descending, a record without
`uploaded_at` being given key `0`; hence, whenever every dated record has
a positive timestamp, every undated record sorts after all dated ones. -/
theorem claim_C10_getAllPapers (getTime : String → Nat)
    (papers : List PaperInfo) :
    (getAllPapers getTime papers).Perm papers ∧
    (getAllPapers getTime papers).Pairwise
      (fun a b => paperTime getTime b ≤ paperTime getTime a) ∧
    (∀ p : PaperInfo, p.uploaded_at = none → paperTime getTime p = 0) ∧
    ((∀ p ∈ papers, ∀ s, p.uploaded_at = some s → 0 < getTime s) →
      (getAllPapers getTime papers).Pairwise
        (fun a b => a.uploaded_at = none → b.uploaded_at = none)) := by
  refine ⟨getAllPapers_perm getTime papers, getAllPapers_sorted getTime papers,
    ?_, ?_⟩
  · intro p hp
    simp [paperTime, hp]
  · intro hpos
    refine List.Pairwise.imp_of_mem ?_ (getAllPapers_sorted getTime papers)
    intro a b _ hbmem hle hanone
    have hbmem' : b ∈ papers :=
      (getAllPapers_perm getTime papers).mem_iff.mp hbmem
    cases hb : b.uploaded_at with
    | none => rfl
    | some s =>
      have h1 : paperTime getTime a = 0 := by simp [paperTime, hanone]
      have h2 : paperTime getTime b = getTime s := by simp [paperTime, hb]
      have h3 : 0 < getTime s := hpos b hbmem' s hb
      omega

/-- Witness for C10 at a concrete store (string length as the timestamp
oracle): with one dated and one undated record, the undated record sorts
after the dated one. -/
theorem claim_C10_witness :
    (getAllPapers (fun s => s.length) [paperB, paperA]).Pairwise
      (fun a b => a.uploaded_at = none → b.uploaded_at = none) ∧
    getAllPapers (fun s => s.length) [paperB, paperA] = [paperA, paperB] := by
  constructor
  · refine (claim_C10_getAllPapers (fun s => s.length) [paperB, paperA]).2.2.2 ?_
    intro p hp s hs
    rcases List.mem_cons.mp hp with rfl | hp
    · rw [show paperB.uploaded_at = none from rfl] at hs
      cases hs
    · rcases List.mem_cons.mp hp with rfl | hp
      · rw [show paperA.uploaded_at = some "2026-01-01T00:00:00.000Z" from rfl]
          at hs
        cases hs
        decide
      · simp at hp
  · decide

/-- The `state` field of a MinerU task-status response; `handleStartParse`
only distinguishes the values `done` and `error`, anything else keeps the
polling loop running. -/
inductive TaskState where
  | pending
  | done
  | error
deriving DecidableEq

/-- The fields of `MinerUTaskStatusResponse` that `handleStartParse`
reads. -/
structure MinerUTaskStatusResponse where
  state : TaskState
  err_msg : Option String
  full_zip_url : Option String
deriving DecidableEq

/-- Outcome of one `await`ed collaborator call: a value, or a thrown
exception carrying its message. -/
inductive CallResult (α : Type) where
  | ok (value : α)
  | thrown (msg : String)
deriving DecidableEq

/-- The collaborator calls `handleStartParse` makes for one paper, as an
oracle environment: `parsePaper` (returning a task id), `getTaskStatus`
per poll attempt, `downloadAndExtract`, `getMarkdown`, `deleteFile`, and
the value of `new Date().toISOString()`. -/
structure ExtractionEnv where
  parse : CallResult String
  taskStatus : Nat → CallResult MinerUTaskStatusResponse
  download : CallResult Unit
  markdown : CallResult String
  deleteOss : CallResult Unit
  now : String

/-- Everything `handleStartParse` does for one paper, in order: the
collaborator calls it awaits and the record-store mutations it performs
(`updatePaper` payloads and the `deletePaper` call). -/
inductive Action where
  | parseCall
  | pollCall
  | downloadCall
  | markdownCall
  | deleteOssCall
  | update (u : PaperUpdates)
  | deleteRecord
deriving DecidableEq

/-- The constant `maxAttempts = 300` of `handleStartParse`. -/
def maxAttempts : Nat := 300

/-- The timeout failure reason thrown by `handleStartParse`. -/
def timeoutMsg : String := "任务超时"

/-- The fallback failure reason used when a failed task reports no
`err_msg`. -/
def parseFailedMsg : String := "解析失败"

/-- The failure reason thrown when a finished task has no usable
`full_zip_url`. -/
def noZipMsg : String := "未获取到 ZIP 文件 URL"

/-- The store write marking a paper as processing before the loop. -/
def parsingMark : PaperUpdates := { status := some .parsing }

/-- The store write after `parsePaper` returns a task id. -/
def submitWrite (taskId : String) : PaperUpdates :=
  { task_id := some taskId, status := some .parsing }

/-- The store write performed on every poll:
the ternary on `taskStatus.state` that records `extracted` once the
state equals `done` and `parsing` otherwise. -/
def pollWrite (taskId : String) (r : MinerUTaskStatusResponse) : PaperUpdates :=
  { task_id := some taskId,
    status := some (if r.state = .done then .extracted else .parsing) }

/-- The store write before `downloadAndExtract`. -/
def downloadingWrite : PaperUpdates := { status := some .downloading }

/-- The store write after the markdown has been fetched. -/
def extractedWrite (taskId content nowStr : String) : PaperUpdates :=
  { task_id := some taskId, status := some .extracted,
    markdown_content := some content, extracted_at := some nowStr }

/-- The store write of the `catch` block. -/
def errorWrite (msg : String) : PaperUpdates :=
  { status := some .error, error := some msg }

/-- Evaluation of `taskStatus.err_msg` with the fallback `parseFailedMsg`
(a missing or empty message is falsy under the JavaScript `||`). -/
def errMsgOrDefault (r : MinerUTaskStatusResponse) : String :=
  match r.err_msg with
  | some m => if m = "" then parseFailedMsg else m
  | none => parseFailedMsg

/-- Negation of the check `!taskStatus.full_zip_url`: the URL is present
and non-empty (the empty string is falsy in JavaScript). -/
def zipUrlPresent (r : MinerUTaskStatusResponse) : Bool :=
  match r.full_zip_url with
  | some z => !(z == "")
  | none => false

/-- How the `do … while` polling loop ends: the while-condition became
false on a terminal response, or an exception was thrown (a poll failed,
or the attempt cap was hit). -/
inductive LoopExit where
  | finished (r : MinerUTaskStatusResponse)
  | thrown (msg : String)
deriving DecidableEq

/-- The `do … while` polling loop of `handleStartParse`: each iteration
awaits `getTaskStatus`, increments `attempts`, writes the poll status to
the store, throws `timeoutMsg` once `attempts` reaches `maxAttempts`,
and repeats while the state is neither `done` nor `error`.  `attempts`
counts the polls already made; `fuel` bounds the recursion and is kept at
`maxAttempts - attempts` by the callers. -/
def pollLoop (taskId : String)
    (polls : Nat → CallResult MinerUTaskStatusResponse)
    (attempts fuel : Nat) : List Action × LoopExit :=
  match fuel with
  | 0 => ([], .thrown timeoutMsg)
  | fuel' + 1 =>
    match polls attempts with
    | .thrown msg => ([.pollCall], .thrown msg)
    | .ok r =>
      if attempts + 1 ≥ maxAttempts then
        ([.pollCall, .update (pollWrite taskId r)], .thrown timeoutMsg)
      else if r.state ≠ .done ∧ r.state ≠ .error then
        let rest := pollLoop taskId polls (attempts + 1) fuel'
        (.pollCall :: .update (pollWrite taskId r) :: rest.1, rest.2)
      else
        ([.pollCall, .update (pollWrite taskId r)], .finished r)

/-- What `handleStartParse` does after the polling loop for one paper:
on a thrown exception the `catch` block writes status `'error'` with the
message; on a finished loop come the `error`-state check, the zip-URL
check, the `downloading` write, materialization (`downloadAndExtract`,
`getMarkdown`), the final `extracted` write, and the OSS-file cleanup
that also deletes the stored record (a failed `deleteFile` is swallowed
by the inner `catch`). -/
def afterLoop (taskId : String) (env : ExtractionEnv) : LoopExit → List Action
  | .thrown msg => [.update (errorWrite msg)]
  | .finished r =>
    if r.state = .error then [.update (errorWrite (errMsgOrDefault r))]
    else if zipUrlPresent r then
      Action.update downloadingWrite :: Action.downloadCall ::
      (match env.download with
       | .thrown msg => [.update (errorWrite msg)]
       | .ok _ =>
         Action.markdownCall ::
         match env.markdown with
         | .thrown msg => [.update (errorWrite msg)]
         | .ok content =>
           Action.update (extractedWrite taskId content env.now) ::
           Action.deleteOssCall ::
           match env.deleteOss with
           | .thrown _ => []
           | .ok _ => [.deleteRecord])
    else [.update (errorWrite noZipMsg)]

/-- The body of `handleStartParse` for one paper of `targetPapers`: the
pre-loop `parsing` marking, the `parsePaper` submission, the polling
loop, then `afterLoop`; any thrown exception lands in the `catch` block,
which writes status `'error'` with the exception's message. -/
def handleStartParse (env : ExtractionEnv) : List Action :=
  Action.update parsingMark ::
  match env.parse with
  | .thrown msg => [.parseCall, .update (errorWrite msg)]
  | .ok taskId =>
    Action.parseCall :: Action.update (submitWrite taskId) ::
    (let res := pollLoop taskId env.taskStatus 0 maxAttempts
     res.1 ++ afterLoop taskId env res.2)

/-- Replay one action against the record store. -/
def applyAction (ossKey : String) (store : List PaperInfo) :
    Action → List PaperInfo
  | .update u => updatePaper ossKey u store
  | .deleteRecord => deletePaper ossKey store
  | _ => store

/-- Replay the actions of a run against the record store. -/
def runStore (ossKey : String) (store : List PaperInfo)
    (acts : List Action) : List PaperInfo :=
  acts.foldl (applyAction ossKey) store

/-- The sequence of `status` values a run writes to the record. -/
def statusWrites (acts : List Action) : List PaperStatus :=
  acts.filterMap (fun a =>
    match a with
    | .update u => u.status
    | _ => none)

/-- A task-status response reporting successful completion. -/
def doneResp : MinerUTaskStatusResponse where
  state := .done
  err_msg := none
  full_zip_url := some "https://cdn.example/result.zip"

/-- An environment in which every collaborator call succeeds and the very
first poll reports completion. -/
def happyEnv : ExtractionEnv where
  parse := .ok "task-1"
  taskStatus := fun _ => .ok doneResp
  download := .ok ()
  markdown := .ok "# extracted"
  deleteOss := .ok ()
  now := "2026-02-02T00:00:00.000Z"

example : statusWrites (handleStartParse happyEnv) =
    [.parsing, .parsing, .extracted, .downloading, .extracted] := by decide

example : runStore "papers/a.pdf" [paperA] (handleStartParse happyEnv) = [] := by
  decide

/-- Counterexample for C1: in a fully successful run (`happyEnv`,
starting from a single `uploaded` record), after the first five actions
the status of the record is already `extracted` (written by the poll
that saw state `done`), and the very next action writes status
`downloading` to it — the transition the claim says never happens.  The
write is applied unconditionally; nothing rejects it. -/
theorem claim_C1_counterexample :
    (runStore "papers/a.pdf" [paperA] ((handleStartParse happyEnv).take 5)).map
        (fun p => p.status) = [PaperStatus.extracted] ∧
    (handleStartParse happyEnv)[5]? = some (.update downloadingWrite) ∧
    runStore "papers/a.pdf" [paperA] ((handleStartParse happyEnv).take 6) =
      runStore "papers/a.pdf"
        (runStore "papers/a.pdf" [paperA] ((handleStartParse happyEnv).take 5))
        [.update downloadingWrite] := by
  refine ⟨by decide, by decide, by decide⟩

/-- Claim C6 as the code actually behaves: a fully successful extraction run
ends by removing the record from the store (`deletePaper` is invoked by
the run itself right after the OSS delete succeeds), even though the
record had just been written with status `extracted` and its markdown. -/
theorem claim_C6_run_deletes_record :
    (runStore "papers/a.pdf" [paperA] ((handleStartParse happyEnv).take 9)).map
        (fun p => (p.status, p.markdown_content)) =
      [(PaperStatus.extracted, some "# extracted")] ∧
    Action.deleteRecord ∈ handleStartParse happyEnv ∧
    runStore "papers/a.pdf" [paperA] (handleStartParse happyEnv) = [] := by
  refine ⟨by decide, by decide, by decide⟩

/-- The status-write edges an extraction run actually produces (the
amended C1 edge set): repeated `parsing`, `parsing → extracted` on the
poll that sees `done`, `extracted → downloading` before materialization,
`downloading → extracted` after it, and `parsing | extracted |
downloading → error` from the catch block. -/
def runEdge (a b : PaperStatus) : Prop :=
  (a = .parsing ∧ b = .parsing) ∨
  (a = .parsing ∧ b = .extracted) ∨
  (a = .extracted ∧ b = .downloading) ∨
  (a = .downloading ∧ b = .extracted) ∨
  ((a = .parsing ∨ a = .extracted ∨ a = .downloading) ∧ b = .error)

theorem statusWrites_append (l₁ l₂ : List Action) :
    statusWrites (l₁ ++ l₂) = statusWrites l₁ ++ statusWrites l₂ :=
  List.filterMap_append l₁ l₂ _

theorem pollLoop_statusWrites (taskId : String)
    (polls : Nat → CallResult MinerUTaskStatusResponse) :
    ∀ fuel attempts,
    (∀ w ∈ statusWrites (pollLoop taskId polls attempts fuel).1,
      w = .parsing ∨ w = .extracted) ∧
    List.Chain' runEdge (statusWrites (pollLoop taskId polls attempts fuel).1) ∧
    (∀ r, (pollLoop taskId polls attempts fuel).2 = .finished r →
      (r.state = .done ∨ r.state = .error) ∧
      (statusWrites (pollLoop taskId polls attempts fuel).1).getLast? =
        some (if r.state = .done then .extracted else .parsing)) := by
  intro fuel
  induction fuel with
  | zero =>
    intro attempts
    refine ⟨by simp [pollLoop, statusWrites], by simp [pollLoop, statusWrites], ?_⟩
    intro r hr
    simp [pollLoop] at hr
  | succ fuel' ih =>
    intro attempts
    rw [pollLoop]
    cases hpoll : polls attempts with
    | thrown msg =>
      refine ⟨by simp [statusWrites], by simp [statusWrites], ?_⟩
      intro r hr
      simp at hr
    | ok r =>
      by_cases hcap : attempts + 1 ≥ maxAttempts
      · simp only [hcap, if_true]
        refine ⟨?_, ?_, ?_⟩
        · intro w hw
          simp [statusWrites, pollWrite] at hw
          rcases hw with rfl
          by_cases hs : r.state = .done <;> simp [hs]
        · simp [statusWrites, pollWrite, List.chain'_singleton]
        · intro r' hr'
          exact LoopExit.noConfusion hr'
      · simp only [hcap, if_false]
        by_cases hrun : r.state ≠ .done ∧ r.state ≠ .error
        · rw [if_pos hrun]
          obtain ⟨ihmem, ihchain, ihfin⟩ := ih (attempts + 1)
          have hw : pollWrite taskId r =
              { task_id := some taskId, status := some .parsing } := by
            simp [pollWrite, hrun.1]
          refine ⟨?_, ?_, ?_⟩
          · intro w hwmem
            simp only [statusWrites, List.filterMap_cons, hw] at hwmem
            rcases List.mem_cons.mp hwmem with rfl | h2
            · exact Or.inl rfl
            · exact ihmem w h2
          · simp only [statusWrites, List.filterMap_cons, hw]
            refine List.chain'_cons'.mpr ⟨?_, ihchain⟩
            intro y hy
            have hymem : y ∈ statusWrites
                (pollLoop taskId polls (attempts + 1) fuel').1 :=
              List.mem_of_mem_head? hy
            rcases ihmem y hymem with rfl | rfl
            · exact Or.inl ⟨rfl, rfl⟩
            · exact Or.inr (Or.inl ⟨rfl, rfl⟩)
          · intro r' hr'
            obtain ⟨hst, hlast⟩ := ihfin r' hr'
            refine ⟨hst, ?_⟩
            simp only [statusWrites, List.filterMap_cons, hw]
            cases hnil : statusWrites (pollLoop taskId polls (attempts + 1) fuel').1 with
            | nil => rw [hnil] at hlast; simp at hlast
            | cons z zs =>
              rw [hnil] at hlast
              simp only [statusWrites] at hnil
              rw [hnil, List.getLast?_cons_cons]
              exact hlast
        · rw [if_neg hrun]
          refine ⟨?_, ?_, ?_⟩
          · intro w hwmem
            simp [statusWrites, pollWrite] at hwmem
            rcases hwmem with rfl
            by_cases hs : r.state = .done <;> simp [hs]
          · simp [statusWrites, pollWrite, List.chain'_singleton]
          · intro r' hr'
            simp only [LoopExit.finished.injEq] at hr'
            subst hr'
            constructor
            · by_cases hd : r.state = .done
              · exact Or.inl hd
              · by_cases he : r.state = .error
                · exact Or.inr he
                · exact absurd ⟨hd, he⟩ hrun
            · simp [statusWrites, pollWrite]

theorem runEdge_parsing_parsing : runEdge .parsing .parsing := Or.inl ⟨rfl, rfl⟩

theorem runEdge_parsing_extracted : runEdge .parsing .extracted :=
  Or.inr (Or.inl ⟨rfl, rfl⟩)

theorem runEdge_extracted_downloading : runEdge .extracted .downloading :=
  Or.inr (Or.inr (Or.inl ⟨rfl, rfl⟩))

theorem runEdge_downloading_extracted : runEdge .downloading .extracted :=
  Or.inr (Or.inr (Or.inr (Or.inl ⟨rfl, rfl⟩)))

theorem runEdge_to_error (a : PaperStatus)
    (h : a = .parsing ∨ a = .extracted ∨ a = .downloading) :
    runEdge a .error :=
  Or.inr (Or.inr (Or.inr (Or.inr ⟨h, rfl⟩)))

theorem mem_of_getLast?_eq {α : Type} (l : List α) (a : α)
    (h : l.getLast? = some a) : a ∈ l := by
  have hx : a ∈ l.getLast? := by rw [Option.mem_def]; exact h
  obtain ⟨hne, heq⟩ := List.mem_getLast?_eq_getLast hx
  exact heq ▸ List.getLast_mem hne

theorem statusWrites_update_of_some (u : PaperUpdates) (s : PaperStatus)
    (h : u.status = some s) (acts : List Action) :
    statusWrites (.update u :: acts) = s :: statusWrites acts := by
  simp [statusWrites, List.filterMap_cons, h]

theorem statusWrites_parseCall (acts : List Action) :
    statusWrites (.parseCall :: acts) = statusWrites acts := rfl

theorem chain'_run_assemble (lw tw : List PaperStatus)
    (hmem : ∀ w ∈ lw, w = .parsing ∨ w = .extracted)
    (hlw : List.Chain' runEdge lw)
    (htw : List.Chain' runEdge tw)
    (hglue : ∀ x ∈ lw.getLast?, ∀ y ∈ tw.head?, runEdge x y)
    (hnilhead : lw = [] → ∀ y ∈ tw.head?, runEdge .parsing y) :
    List.Chain' runEdge (.parsing :: .parsing :: (lw ++ tw)) := by
  have happ : List.Chain' runEdge (lw ++ tw) :=
    List.chain'_append.mpr ⟨hlw, htw, hglue⟩
  refine List.chain'_cons.mpr ⟨runEdge_parsing_parsing, ?_⟩
  refine List.chain'_cons'.mpr ⟨?_, happ⟩
  intro y hy
  cases hl : lw with
  | nil =>
    rw [hl] at hy
    exact hnilhead hl y hy
  | cons a lw' =>
    rw [hl] at hy
    simp only [List.cons_append, List.head?_cons, Option.mem_def,
      Option.some.injEq] at hy
    subst hy
    rcases hmem a (by simp [hl]) with rfl | rfl
    · exact runEdge_parsing_parsing
    · exact runEdge_parsing_extracted

theorem handleStartParse_ok_eq (taskId : String) (env : ExtractionEnv)
    (h : env.parse = .ok taskId) :
    handleStartParse env =
      .update parsingMark :: .parseCall :: .update (submitWrite taskId) ::
        ((pollLoop taskId env.taskStatus 0 maxAttempts).1 ++
          afterLoop taskId env (pollLoop taskId env.taskStatus 0 maxAttempts).2) := by
  rw [handleStartParse, h]

/-- Claim C1, amended to what the code does: the first status value an
extraction run writes is `parsing`, and consecutive status writes follow
exactly the edges of `runEdge` — repeated `parsing` polls,
`parsing → extracted` on the poll that sees `done`,
`extracted → downloading` before materialization,
`downloading → extracted` after it, and `parsing | extracted |
downloading → error` on failure.  (The writes are applied by
`updatePaper` unconditionally; no legality check rejects them.) -/
theorem claim_C1_amended (env : ExtractionEnv) :
    (statusWrites (handleStartParse env)).head? = some PaperStatus.parsing ∧
    List.Chain' runEdge (statusWrites (handleStartParse env)) := by
  constructor
  · cases h : env.parse with
    | thrown msg => rw [handleStartParse, h]; rfl
    | ok taskId => rw [handleStartParse, h]; rfl
  · cases h : env.parse with
    | thrown msg =>
      rw [handleStartParse, h]
      show List.Chain' runEdge [.parsing, .error]
      exact List.chain'_pair.mpr (runEdge_to_error _ (Or.inl rfl))
    | ok taskId =>
      obtain ⟨hmem, hchain, hfin⟩ :=
        pollLoop_statusWrites taskId env.taskStatus maxAttempts 0
      rw [handleStartParse_ok_eq taskId env h,
        statusWrites_update_of_some parsingMark .parsing rfl,
        statusWrites_parseCall,
        statusWrites_update_of_some (submitWrite taskId) .parsing rfl,
        statusWrites_append]
      refine chain'_run_assemble _ _ hmem hchain ?_ ?_ ?_
      case _ =>
        -- Chain' of the after-loop status writes
        cases hexit : (pollLoop taskId env.taskStatus 0 maxAttempts).2 with
        | thrown msg =>
          show List.Chain' runEdge (statusWrites [.update (errorWrite msg)])
          exact List.chain'_singleton _
        | finished r =>
          by_cases herr : r.state = .error
          · rw [afterLoop, if_pos herr]
            exact List.chain'_singleton _
          · rw [afterLoop, if_neg herr]
            by_cases hzip : zipUrlPresent r = true
            · rw [if_pos hzip]
              cases env.download with
              | thrown msg =>
                show List.Chain' runEdge [.downloading, .error]
                exact List.chain'_pair.mpr
                  (runEdge_to_error _ (Or.inr (Or.inr rfl)))
              | ok u =>
                cases env.markdown with
                | thrown msg =>
                  show List.Chain' runEdge [.downloading, .error]
                  exact List.chain'_pair.mpr
                    (runEdge_to_error _ (Or.inr (Or.inr rfl)))
                | ok content =>
                  cases env.deleteOss with
                  | thrown msg =>
                    show List.Chain' runEdge [.downloading, .extracted]
                    exact List.chain'_pair.mpr runEdge_downloading_extracted
                  | ok v =>
                    show List.Chain' runEdge [.downloading, .extracted]
                    exact List.chain'_pair.mpr runEdge_downloading_extracted
            · rw [if_neg hzip]
              exact List.chain'_singleton _
      case _ =>
        -- the glue edge: last loop write → first after-loop write
        intro x hx y hy
        have hxmem : x ∈ statusWrites (pollLoop taskId env.taskStatus 0
            maxAttempts).1 :=
          mem_of_getLast?_eq _ _ hx
        cases hexit : (pollLoop taskId env.taskStatus 0 maxAttempts).2 with
        | thrown msg =>
          rw [hexit] at hy
          have hy2 : y = PaperStatus.error := by
            exact (Option.mem_some_iff.mp hy).symm
          subst hy2
          rcases hmem x hxmem with rfl | rfl
          · exact runEdge_to_error _ (Or.inl rfl)
          · exact runEdge_to_error _ (Or.inr (Or.inl rfl))
        | finished r =>
          obtain ⟨hstate, hlast⟩ := hfin r hexit
          rw [hexit] at hy
          by_cases herr : r.state = .error
          · rw [afterLoop, if_pos herr] at hy
            have hy2 : y = PaperStatus.error := by
              exact (Option.mem_some_iff.mp hy).symm
            subst hy2
            rcases hmem x hxmem with rfl | rfl
            · exact runEdge_to_error _ (Or.inl rfl)
            · exact runEdge_to_error _ (Or.inr (Or.inl rfl))
          · have hdone : r.state = .done := hstate.resolve_right herr
            have hxval : x = PaperStatus.extracted := by
              rw [hlast, hdone, if_pos rfl] at hx
              exact (Option.mem_some_iff.mp hx).symm
            subst hxval
            rw [afterLoop, if_neg herr] at hy
            by_cases hzip : zipUrlPresent r = true
            · rw [if_pos hzip] at hy
              have hy2 : y = PaperStatus.downloading := by
                exact (Option.mem_some_iff.mp hy).symm
              subst hy2
              exact runEdge_extracted_downloading
            · rw [if_neg hzip] at hy
              have hy2 : y = PaperStatus.error := by
                exact (Option.mem_some_iff.mp hy).symm
              subst hy2
              exact runEdge_to_error _ (Or.inr (Or.inl rfl))
      case _ =>
        -- loop wrote nothing: only possible when the very first poll threw
        intro hnil y hy
        cases hexit : (pollLoop taskId env.taskStatus 0 maxAttempts).2 with
        | thrown msg =>
          rw [hexit] at hy
          have hy2 : y = PaperStatus.error := by
            exact (Option.mem_some_iff.mp hy).symm
          subst hy2
          exact runEdge_to_error _ (Or.inl rfl)
        | finished r =>
          obtain ⟨_, hlast⟩ := hfin r hexit
          rw [hnil] at hlast
          simp at hlast

theorem pollLoop_pending (taskId : String)
    (polls : Nat → CallResult MinerUTaskStatusResponse)
    (hpend : ∀ i, ∃ r, polls i = .ok r ∧ r.state ≠ .done ∧ r.state ≠ .error) :
    ∀ fuel attempts, attempts + fuel = maxAttempts → 0 < fuel →
    ((pollLoop taskId polls attempts fuel).1.countP
      (fun a => a == Action.pollCall)) = fuel ∧
    (pollLoop taskId polls attempts fuel).2 = .thrown timeoutMsg ∧
    (∀ a ∈ (pollLoop taskId polls attempts fuel).1,
      a = .pollCall ∨ ∃ u, a = .update u) := by
  intro fuel
  induction fuel with
  | zero => intro attempts _ hpos; exact absurd hpos (by simp)
  | succ fuel' ih =>
    intro attempts hsum _
    obtain ⟨r, hr, hnd, hne⟩ := hpend attempts
    simp only [pollLoop, hr]
    by_cases hcap : attempts + 1 ≥ maxAttempts
    · have hf : fuel' = 0 := by omega
      subst hf
      rw [if_pos hcap]
      refine ⟨by rfl, rfl, ?_⟩
      intro a ha
      rcases List.mem_cons.mp ha with rfl | ha
      · exact Or.inl rfl
      · rcases List.mem_cons.mp ha with rfl | ha
        · exact Or.inr ⟨_, rfl⟩
        · simp at ha
    · rw [if_neg hcap, if_pos ⟨hnd, hne⟩]
      have hf : 0 < fuel' := by omega
      obtain ⟨ihc, ihe, ihm⟩ := ih (attempts + 1) (by omega) hf
      refine ⟨?_, ihe, ?_⟩
      · simp only [List.countP_cons]
        rw [ihc]
        simp
      · intro a ha
        rcases List.mem_cons.mp ha with rfl | ha
        · exact Or.inl rfl
        · rcases List.mem_cons.mp ha with rfl | ha
          · exact Or.inr ⟨_, rfl⟩
          · exact ihm a ha

/-- Claim C3: when the job never reaches a terminal state (every status
query returns a non-`done`, non-`error` response), the run submits the
job exactly once, performs exactly 300 status polls — never a 301st —
and then stops, writing status `error` with the timeout reason
`timeoutMsg` as its final store mutation. -/
theorem claim_C3_poll_budget (taskId : String)
    (polls : Nat → CallResult MinerUTaskStatusResponse)
    (dl : CallResult Unit) (md : CallResult String) (del : CallResult Unit)
    (nowStr : String)
    (hpend : ∀ i, ∃ r, polls i = .ok r ∧ r.state ≠ .done ∧ r.state ≠ .error) :
    (handleStartParse ⟨.ok taskId, polls, dl, md, del, nowStr⟩).countP
      (fun a => a == Action.pollCall) = 300 ∧
    (handleStartParse ⟨.ok taskId, polls, dl, md, del, nowStr⟩).countP
      (fun a => a == Action.parseCall) = 1 ∧
    (handleStartParse ⟨.ok taskId, polls, dl, md, del, nowStr⟩).getLast? =
      some (.update (errorWrite timeoutMsg)) := by
  obtain ⟨hcount, hexit, hmem⟩ :=
    pollLoop_pending taskId polls hpend maxAttempts 0 (by rfl) (by decide)
  have htrace : handleStartParse ⟨.ok taskId, polls, dl, md, del, nowStr⟩ =
      [.update parsingMark, .parseCall, .update (submitWrite taskId)] ++
        ((pollLoop taskId polls 0 maxAttempts).1 ++
          afterLoop taskId ⟨.ok taskId, polls, dl, md, del, nowStr⟩
            (pollLoop taskId polls 0 maxAttempts).2) := rfl
  rw [htrace, hexit]
  have hafter : afterLoop taskId ⟨.ok taskId, polls, dl, md, del, nowStr⟩
      (.thrown timeoutMsg) = [.update (errorWrite timeoutMsg)] := rfl
  rw [hafter]
  refine ⟨?_, ?_, ?_⟩
  · rw [List.countP_append, List.countP_append]
    rw [hcount]
    rfl
  · rw [List.countP_append, List.countP_append]
    have hzero : (pollLoop taskId polls 0 maxAttempts).1.countP
        (fun a => a == Action.parseCall) = 0 := by
      rw [List.countP_eq_zero]
      intro a ha
      rcases hmem a ha with rfl | ⟨u, rfl⟩ <;> simp
    rw [hzero]
    rfl
  · rw [List.getLast?_append, List.getLast?_append]
    rfl

/-- A task-status response that is still pending. -/
def pendingResp : MinerUTaskStatusResponse where
  state := .pending
  err_msg := none
  full_zip_url := none

/-- Witness for C3: a concrete never-terminating job hits exactly the
300-poll budget and is recorded as a timeout failure. -/
theorem claim_C3_witness :
    (handleStartParse ⟨.ok "task-1", fun _ => .ok pendingResp, .ok (),
        .ok "# md", .ok (), "2026-02-02"⟩).countP
      (fun a => a == Action.pollCall) = 300 ∧
    (handleStartParse ⟨.ok "task-1", fun _ => .ok pendingResp, .ok (),
        .ok "# md", .ok (), "2026-02-02"⟩).countP
      (fun a => a == Action.parseCall) = 1 ∧
    (handleStartParse ⟨.ok "task-1", fun _ => .ok pendingResp, .ok (),
        .ok "# md", .ok (), "2026-02-02"⟩).getLast? =
      some (.update (errorWrite timeoutMsg)) :=
  claim_C3_poll_budget "task-1" (fun _ => .ok pendingResp) (.ok ()) (.ok "# md")
    (.ok ()) "2026-02-02"
    (fun _ => ⟨pendingResp, rfl, by decide, by decide⟩)

theorem pollLoop_fail (taskId : String)
    (polls : Nat → CallResult MinerUTaskStatusResponse) (k : Nat)
    (r : MinerUTaskStatusResponse)
    (hk : k + 1 < maxAttempts)
    (hpend : ∀ i < k, ∃ r', polls i = .ok r' ∧ r'.state ≠ .done ∧
      r'.state ≠ .error)
    (hfail : polls k = .ok r) (hterm : r.state = .done ∨ r.state = .error) :
    ∀ fuel attempts, attempts + fuel = maxAttempts → attempts ≤ k →
    ((pollLoop taskId polls attempts fuel).1.countP
      (fun a => a == Action.pollCall)) = k - attempts + 1 ∧
    (pollLoop taskId polls attempts fuel).2 = .finished r ∧
    (∀ a ∈ (pollLoop taskId polls attempts fuel).1,
      a = .pollCall ∨ ∃ u, a = .update u ∧ u.oss_key = none) := by
  intro fuel
  induction fuel with
  | zero =>
    intro attempts hsum hle
    have : False := by
      rw [maxAttempts] at hsum hk
      omega
    exact this.elim
  | succ fuel' ih =>
    intro attempts hsum hle
    by_cases heq : attempts = k
    · subst heq
      simp only [pollLoop, hfail]
      rw [if_neg (by omega : ¬ attempts + 1 ≥ maxAttempts)]
      rw [if_neg (fun hc => hterm.elim (fun h => hc.1 h) (fun h => hc.2 h))]
      refine ⟨by simp, rfl, ?_⟩
      intro a ha
      rcases List.mem_cons.mp ha with rfl | ha
      · exact Or.inl rfl
      · rcases List.mem_cons.mp ha with rfl | ha
        · exact Or.inr ⟨_, rfl, rfl⟩
        · simp at ha
    · have hlt : attempts < k := Nat.lt_of_le_of_ne hle heq
      obtain ⟨r', hr', hnd, hne⟩ := hpend attempts hlt
      simp only [pollLoop, hr']
      rw [if_neg (by omega : ¬ attempts + 1 ≥ maxAttempts)]
      rw [if_pos ⟨hnd, hne⟩]
      obtain ⟨ihc, ihe, ihm⟩ := ih (attempts + 1) (by omega) hlt
      refine ⟨?_, ihe, ?_⟩
      · simp only [List.countP_cons]
        rw [ihc]
        simp only [show ((Action.pollCall == Action.pollCall) = true) from rfl,
          if_true]
        have : (Action.update (pollWrite taskId r') == Action.pollCall) = false :=
          rfl
        rw [this]
        simp
        omega
      · intro a ha
        rcases List.mem_cons.mp ha with rfl | ha
        · exact Or.inl rfl
        · rcases List.mem_cons.mp ha with rfl | ha
          · exact Or.inr ⟨_, rfl, rfl⟩
          · exact ihm a ha

theorem getPaperByOssKey_updatePaper_same (ossKey : String) (u : PaperUpdates)
    (papers : List PaperInfo) (hu : u.oss_key = none) :
    getPaperByOssKey ossKey (updatePaper ossKey u papers) =
      (getPaperByOssKey ossKey papers).map (fun p => applyUpdates p u) := by
  induction papers with
  | nil => rfl
  | cons p ps ih =>
    rw [updatePaper_cons]
    by_cases h : p.oss_key == ossKey
    · have hkey : (applyUpdates p u).oss_key = p.oss_key := by
        simp [applyUpdates, hu]
      simp only [h, if_true, getPaperByOssKey, List.find?_cons, hkey]
      rfl
    · have h' : (p.oss_key == ossKey) = false := by simpa using h
      simp only [h', Bool.false_eq_true, if_false, getPaperByOssKey,
        List.find?_cons, h']
      exact ih

/-- The cumulative record transformation of a list of actions (ignoring
the collaborator calls and, for the purposes of `runStore_lookup`, the
record deletion). -/
def foldUpdates (acts : List Action) (p : PaperInfo) : PaperInfo :=
  acts.foldl (fun q a =>
    match a with
    | .update u => applyUpdates q u
    | _ => q) p

theorem runStore_lookup (ossKey : String) (acts : List Action)
    (hupd : ∀ u, Action.update u ∈ acts → u.oss_key = none)
    (hdel : Action.deleteRecord ∉ acts) :
    ∀ store, getPaperByOssKey ossKey (runStore ossKey store acts) =
      (getPaperByOssKey ossKey store).map (foldUpdates acts) := by
  induction acts with
  | nil =>
    intro store
    rw [show runStore ossKey store [] = store from rfl]
    cases getPaperByOssKey ossKey store <;> rfl
  | cons a acts' ih =>
    intro store
    have hupd' : ∀ u, Action.update u ∈ acts' → u.oss_key = none :=
      fun u hu => hupd u (by simp [hu])
    have hdel' : Action.deleteRecord ∉ acts' := fun hc => hdel (by simp [hc])
    cases a with
    | update u =>
      have hu : u.oss_key = none := hupd u (by simp)
      have hstep : runStore ossKey store (.update u :: acts') =
          runStore ossKey (updatePaper ossKey u store) acts' := rfl
      rw [hstep, ih hupd' hdel', getPaperByOssKey_updatePaper_same ossKey u store hu,
        Option.map_map]
      cases getPaperByOssKey ossKey store <;> rfl
    | deleteRecord => exact absurd (by simp) hdel
    | parseCall =>
      rw [show runStore ossKey store (.parseCall :: acts') =
        runStore ossKey store acts' from rfl, ih hupd' hdel']
      cases getPaperByOssKey ossKey store <;> rfl
    | pollCall =>
      rw [show runStore ossKey store (.pollCall :: acts') =
        runStore ossKey store acts' from rfl, ih hupd' hdel']
      cases getPaperByOssKey ossKey store <;> rfl
    | downloadCall =>
      rw [show runStore ossKey store (.downloadCall :: acts') =
        runStore ossKey store acts' from rfl, ih hupd' hdel']
      cases getPaperByOssKey ossKey store <;> rfl
    | markdownCall =>
      rw [show runStore ossKey store (.markdownCall :: acts') =
        runStore ossKey store acts' from rfl, ih hupd' hdel']
      cases getPaperByOssKey ossKey store <;> rfl
    | deleteOssCall =>
      rw [show runStore ossKey store (.deleteOssCall :: acts') =
        runStore ossKey store acts' from rfl, ih hupd' hdel']
      cases getPaperByOssKey ossKey store <;> rfl

/-- The stopping and error contract of one extraction run that fails
with `reason`: it polled `nPolls` times (no further polls), submitted
exactly once (no further submissions), its final store mutation writes
status `error` with `reason`, and replaying the run against any store
holding the record leaves that record with `status = error` and
`error = reason`. -/
abbrev failsWith (env : ExtractionEnv) (nPolls : Nat) (reason : String) :
    Prop :=
  (handleStartParse env).countP (fun a => a == Action.pollCall) = nPolls ∧
  (handleStartParse env).countP (fun a => a == Action.parseCall) = 1 ∧
  (handleStartParse env).getLast? = some (.update (errorWrite reason)) ∧
  ∀ (ossKey : String) (store : List PaperInfo) (p : PaperInfo),
    getPaperByOssKey ossKey store = some p →
    ∃ q, getPaperByOssKey ossKey
        (runStore ossKey store (handleStartParse env)) = some q ∧
      q.status = .error ∧ q.error = some reason

theorem safe_of_loopmem (a : Action)
    (h : a = .pollCall ∨ ∃ u, a = .update u ∧ u.oss_key = none) :
    (∀ u, a = Action.update u → u.oss_key = none) ∧
      a ≠ Action.deleteRecord := by
  rcases h with rfl | ⟨u, rfl, hu⟩
  · exact ⟨fun u h2 => Action.noConfusion h2, fun h2 => Action.noConfusion h2⟩
  · refine ⟨fun u2 h2 => ?_, fun h2 => Action.noConfusion h2⟩
    cases h2
    exact hu

theorem failsWith_intro (env : ExtractionEnv) (taskId reason : String)
    (nPolls : Nat) (mid : List Action)
    (htrace : handleStartParse env =
      [.update parsingMark, .parseCall, .update (submitWrite taskId)] ++
        (mid ++ [.update (errorWrite reason)]))
    (hp1 : mid.countP (fun a => a == Action.pollCall) = nPolls)
    (hp2 : mid.countP (fun a => a == Action.parseCall) = 0)
    (hsafe : ∀ a ∈ mid, (∀ u, a = Action.update u → u.oss_key = none) ∧
      a ≠ Action.deleteRecord) :
    failsWith env nPolls reason := by
  have hupd : ∀ u, Action.update u ∈ handleStartParse env →
      u.oss_key = none := by
    intro u hu
    rw [htrace] at hu
    rcases List.mem_append.mp hu with h1 | h1
    · rcases List.mem_cons.mp h1 with heq | h1
      · cases heq; rfl
      · rcases List.mem_cons.mp h1 with heq | h1
        · cases heq
        · rcases List.mem_cons.mp h1 with heq | h1
          · cases heq; rfl
          · simp at h1
    · rcases List.mem_append.mp h1 with h2 | h2
      · exact (hsafe _ h2).1 u rfl
      · rcases List.mem_cons.mp h2 with heq | h2
        · cases heq; rfl
        · simp at h2
  have hdel : Action.deleteRecord ∉ handleStartParse env := by
    intro hc
    rw [htrace] at hc
    rcases List.mem_append.mp hc with h1 | h1
    · simp at h1
    · rcases List.mem_append.mp h1 with h2 | h2
      · exact (hsafe _ h2).2 rfl
      · simp at h2
  refine ⟨?_, ?_, ?_, ?_⟩
  · rw [htrace, List.countP_append, List.countP_append, hp1]
    rw [show List.countP (fun a => a == Action.pollCall)
      [Action.update parsingMark, Action.parseCall,
        Action.update (submitWrite taskId)] = 0 from rfl]
    rw [show List.countP (fun a => a == Action.pollCall)
      [Action.update (errorWrite reason)] = 0 from rfl]
    omega
  · rw [htrace, List.countP_append, List.countP_append, hp2]
    rfl
  · rw [htrace, List.getLast?_append, List.getLast?_append]
    rfl
  · intro ossKey store p hp
    have hlook := runStore_lookup ossKey (handleStartParse env) hupd hdel store
    rw [hlook, hp]
    have hshape : handleStartParse env =
        ([Action.update parsingMark, Action.parseCall,
          Action.update (submitWrite taskId)] ++ mid) ++
          [Action.update (errorWrite reason)] := by
      rw [htrace, List.append_assoc]
    refine ⟨foldUpdates (handleStartParse env) p, rfl, ?_, ?_⟩
    · rw [foldUpdates, hshape, List.foldl_append]
      rfl
    · rw [foldUpdates, hshape, List.foldl_append]
      rfl

theorem pollLoop_throw (taskId : String)
    (polls : Nat → CallResult MinerUTaskStatusResponse) (k : Nat)
    (msg : String)
    (hk : k < maxAttempts)
    (hpend : ∀ i < k, ∃ r', polls i = .ok r' ∧ r'.state ≠ .done ∧
      r'.state ≠ .error)
    (hthrow : polls k = .thrown msg) :
    ∀ fuel attempts, attempts + fuel = maxAttempts → attempts ≤ k →
    ((pollLoop taskId polls attempts fuel).1.countP
      (fun a => a == Action.pollCall)) = k - attempts + 1 ∧
    (pollLoop taskId polls attempts fuel).2 = .thrown msg ∧
    (∀ a ∈ (pollLoop taskId polls attempts fuel).1,
      a = .pollCall ∨ ∃ u, a = .update u ∧ u.oss_key = none) := by
  intro fuel
  induction fuel with
  | zero =>
    intro attempts hsum hle
    have : False := by
      rw [maxAttempts] at hsum hk
      omega
    exact this.elim
  | succ fuel' ih =>
    intro attempts hsum hle
    by_cases heq : attempts = k
    · subst heq
      simp only [pollLoop, hthrow]
      refine ⟨by simp, by simp, ?_⟩
      intro a ha
      rcases List.mem_cons.mp ha with rfl | ha
      · exact Or.inl rfl
      · simp at ha
    · have hlt : attempts < k := Nat.lt_of_le_of_ne hle heq
      obtain ⟨r', hr', hnd, hne⟩ := hpend attempts hlt
      simp only [pollLoop, hr']
      rw [if_neg (by omega : ¬ attempts + 1 ≥ maxAttempts)]
      rw [if_pos ⟨hnd, hne⟩]
      obtain ⟨ihc, ihe, ihm⟩ := ih (attempts + 1) (by omega) hlt
      refine ⟨?_, ihe, ?_⟩
      · simp only [List.countP_cons]
        rw [ihc]
        simp only [show ((Action.pollCall == Action.pollCall) = true) from rfl,
          if_true]
        have : (Action.update (pollWrite taskId r') == Action.pollCall) = false :=
          rfl
        rw [this]
        simp
        omega
      · intro a ha
        rcases List.mem_cons.mp ha with rfl | ha
        · exact Or.inl rfl
        · rcases List.mem_cons.mp ha with rfl | ha
          · exact Or.inr ⟨_, rfl, rfl⟩
          · exact ihm a ha

/-- A task-status response reporting terminal failure with a reason. -/
def failedResp : MinerUTaskStatusResponse where
  state := .error
  err_msg := some "解析引擎崩溃"
  full_zip_url := none

/-- A poll oracle that is pending twice and fails on the third poll. -/
def thirdPollFails (i : Nat) : CallResult MinerUTaskStatusResponse :=
  if i < 2 then .ok pendingResp else .ok failedResp

/-- A poll oracle that is pending for 299 polls and reports terminal
failure on the 300th. -/
def lateFailPolls (i : Nat) : CallResult MinerUTaskStatusResponse :=
  if i < 299 then .ok pendingResp else .ok failedResp

set_option maxRecDepth 8192 in
/-- Counterexample for C4: a job that reports terminal failure on the
300th poll (with reason `解析引擎崩溃`) is NOT recorded with the reported
reason.  In the source, `attempts >= maxAttempts` throws the timeout
message right after the poll write and before the `state === 'error'`
check, so the run ends with the timeout reason instead: the final store
mutation and the record both carry `timeoutMsg`, not the reported
reason. -/
theorem claim_C4_counterexample :
    lateFailPolls 299 = .ok failedResp ∧
    failedResp.state = .error ∧
    failedResp.err_msg = some "解析引擎崩溃" ∧
    (handleStartParse ⟨.ok "task-9", lateFailPolls, .ok (), .ok "# md",
        .ok (), "2026-02-02"⟩).countP
      (fun a => a == Action.pollCall) = 300 ∧
    (handleStartParse ⟨.ok "task-9", lateFailPolls, .ok (), .ok "# md",
        .ok (), "2026-02-02"⟩).getLast? =
      some (.update (errorWrite timeoutMsg)) ∧
    timeoutMsg ≠ "解析引擎崩溃" ∧
    getPaperByOssKey "papers/a.pdf"
        (runStore "papers/a.pdf" [paperA]
          (handleStartParse ⟨.ok "task-9", lateFailPolls, .ok (), .ok "# md",
            .ok (), "2026-02-02"⟩)) =
      some { paperA with
               task_id := some "task-9",
               status := .error,
               error := some timeoutMsg } := by
  exact ⟨rfl, rfl, rfl, by decide, by decide, by decide, by decide⟩

/-- Claim C4, amended: the run stops with status `error`, the matching
error reason, and no further polls or submissions, in each failure mode
the code actually has — (1) the job reports terminal failure on poll
`k + 1` for `k + 1 < 300` (on the 300th poll the timeout throw precedes
the error-state check, see the C4 counterexample) with a non-empty
`err_msg`, recorded verbatim; (2) the submission throws, its message
recorded, zero polls; (3) a status query throws on poll `k + 1`, its
message recorded; (4) `downloadAndExtract` throws after a successful
job, its message recorded; (5) `getMarkdown` throws after a successful
download, its message recorded. -/
theorem claim_C4_amended :
    (∀ (taskId : String) (polls : Nat → CallResult MinerUTaskStatusResponse)
      (k : Nat) (r : MinerUTaskStatusResponse) (reason : String)
      (dl : CallResult Unit) (md : CallResult String) (del : CallResult Unit)
      (nowStr : String),
      k + 1 < maxAttempts →
      (∀ i < k, ∃ r', polls i = .ok r' ∧ r'.state ≠ .done ∧
        r'.state ≠ .error) →
      polls k = .ok r → r.state = .error → r.err_msg = some reason →
      reason ≠ "" →
      failsWith ⟨.ok taskId, polls, dl, md, del, nowStr⟩ (k + 1) reason) ∧
    (∀ (msg : String) (polls : Nat → CallResult MinerUTaskStatusResponse)
      (dl : CallResult Unit) (md : CallResult String) (del : CallResult Unit)
      (nowStr : String),
      failsWith ⟨.thrown msg, polls, dl, md, del, nowStr⟩ 0 msg) ∧
    (∀ (taskId : String) (polls : Nat → CallResult MinerUTaskStatusResponse)
      (k : Nat) (msg : String)
      (dl : CallResult Unit) (md : CallResult String) (del : CallResult Unit)
      (nowStr : String),
      k < maxAttempts →
      (∀ i < k, ∃ r', polls i = .ok r' ∧ r'.state ≠ .done ∧
        r'.state ≠ .error) →
      polls k = .thrown msg →
      failsWith ⟨.ok taskId, polls, dl, md, del, nowStr⟩ (k + 1) msg) ∧
    (∀ (taskId : String) (polls : Nat → CallResult MinerUTaskStatusResponse)
      (k : Nat) (r : MinerUTaskStatusResponse) (msg : String)
      (md : CallResult String) (del : CallResult Unit) (nowStr : String),
      k + 1 < maxAttempts →
      (∀ i < k, ∃ r', polls i = .ok r' ∧ r'.state ≠ .done ∧
        r'.state ≠ .error) →
      polls k = .ok r → r.state = .done → zipUrlPresent r = true →
      failsWith ⟨.ok taskId, polls, .thrown msg, md, del, nowStr⟩ (k + 1)
        msg) ∧
    (∀ (taskId : String) (polls : Nat → CallResult MinerUTaskStatusResponse)
      (k : Nat) (r : MinerUTaskStatusResponse) (msg : String)
      (del : CallResult Unit) (nowStr : String),
      k + 1 < maxAttempts →
      (∀ i < k, ∃ r', polls i = .ok r' ∧ r'.state ≠ .done ∧
        r'.state ≠ .error) →
      polls k = .ok r → r.state = .done → zipUrlPresent r = true →
      failsWith ⟨.ok taskId, polls, .ok (), .thrown msg, del, nowStr⟩ (k + 1)
        msg) := by
  refine ⟨?_, ?_, ?_, ?_, ?_⟩
  · -- (1) job reports terminal failure before the attempt cap
    intro taskId polls k r reason dl md del nowStr hk hpend hfail hstate hmsg
      hne
    obtain ⟨hcount, hexit, hmem⟩ := pollLoop_fail taskId polls k r hk hpend
      hfail (Or.inr hstate) maxAttempts 0 (by rfl) (by omega)
    have hreason : errMsgOrDefault r = reason := by
      simp only [errMsgOrDefault, hmsg]
      rw [if_neg hne]
    have hafter : afterLoop taskId ⟨.ok taskId, polls, dl, md, del, nowStr⟩
        (.finished r) = [.update (errorWrite reason)] := by
      rw [afterLoop, if_pos hstate, hreason]
    have htrace : handleStartParse ⟨.ok taskId, polls, dl, md, del, nowStr⟩ =
        [.update parsingMark, .parseCall, .update (submitWrite taskId)] ++
          ((pollLoop taskId polls 0 maxAttempts).1 ++
            [.update (errorWrite reason)]) := by
      rw [show handleStartParse ⟨.ok taskId, polls, dl, md, del, nowStr⟩ =
        [.update parsingMark, .parseCall, .update (submitWrite taskId)] ++
          ((pollLoop taskId polls 0 maxAttempts).1 ++
            afterLoop taskId ⟨.ok taskId, polls, dl, md, del, nowStr⟩
              (pollLoop taskId polls 0 maxAttempts).2) from rfl, hexit, hafter]
    refine failsWith_intro _ taskId reason (k + 1) _ htrace ?_ ?_ ?_
    · rw [hcount]
      omega
    · rw [List.countP_eq_zero]
      intro a ha
      rcases hmem a ha with rfl | ⟨u, rfl, _⟩ <;> simp
    · intro a ha
      exact safe_of_loopmem a (hmem a ha)
  · -- (2) the submission itself throws
    intro msg polls dl md del nowStr
    refine ⟨rfl, rfl, rfl, ?_⟩
    intro ossKey store p hp
    have htr : handleStartParse ⟨.thrown msg, polls, dl, md, del, nowStr⟩ =
        [.update parsingMark, .parseCall, .update (errorWrite msg)] := rfl
    have hupd : ∀ u, Action.update u ∈
        handleStartParse ⟨.thrown msg, polls, dl, md, del, nowStr⟩ →
        u.oss_key = none := by
      intro u hu
      rw [htr] at hu
      rcases List.mem_cons.mp hu with heq | hu
      · cases heq; rfl
      · rcases List.mem_cons.mp hu with heq | hu
        · cases heq
        · rcases List.mem_cons.mp hu with heq | hu
          · cases heq; rfl
          · simp at hu
    have hdel : Action.deleteRecord ∉
        handleStartParse ⟨.thrown msg, polls, dl, md, del, nowStr⟩ := by
      intro hc
      rw [htr] at hc
      simp at hc
    rw [runStore_lookup ossKey _ hupd hdel store, hp]
    exact ⟨_, rfl, rfl, rfl⟩
  · -- (3) a status query throws
    intro taskId polls k msg dl md del nowStr hk hpend hthrow
    obtain ⟨hcount, hexit, hmem⟩ := pollLoop_throw taskId polls k msg hk hpend
      hthrow maxAttempts 0 (by rfl) (by omega)
    have htrace : handleStartParse ⟨.ok taskId, polls, dl, md, del, nowStr⟩ =
        [.update parsingMark, .parseCall, .update (submitWrite taskId)] ++
          ((pollLoop taskId polls 0 maxAttempts).1 ++
            [.update (errorWrite msg)]) := by
      rw [show handleStartParse ⟨.ok taskId, polls, dl, md, del, nowStr⟩ =
        [.update parsingMark, .parseCall, .update (submitWrite taskId)] ++
          ((pollLoop taskId polls 0 maxAttempts).1 ++
            afterLoop taskId ⟨.ok taskId, polls, dl, md, del, nowStr⟩
              (pollLoop taskId polls 0 maxAttempts).2) from rfl, hexit]
      rfl
    refine failsWith_intro _ taskId msg (k + 1) _ htrace ?_ ?_ ?_
    · rw [hcount]
      omega
    · rw [List.countP_eq_zero]
      intro a ha
      rcases hmem a ha with rfl | ⟨u, rfl, _⟩ <;> simp
    · intro a ha
      exact safe_of_loopmem a (hmem a ha)
  · -- (4) materialization: downloadAndExtract throws
    intro taskId polls k r msg md del nowStr hk hpend hfail hdone hzip
    obtain ⟨hcount, hexit, hmem⟩ := pollLoop_fail taskId polls k r hk hpend
      hfail (Or.inl hdone) maxAttempts 0 (by rfl) (by omega)
    have herr : ¬ r.state = .error := by
      rw [hdone]
      exact fun hcon => TaskState.noConfusion hcon
    have hafter : afterLoop taskId ⟨.ok taskId, polls, .thrown msg, md, del,
        nowStr⟩ (.finished r) =
        [.update downloadingWrite, .downloadCall, .update (errorWrite msg)] := by
      rw [afterLoop, if_neg herr, if_pos hzip]
    have htrace : handleStartParse ⟨.ok taskId, polls, .thrown msg, md, del,
        nowStr⟩ =
        [.update parsingMark, .parseCall, .update (submitWrite taskId)] ++
          (((pollLoop taskId polls 0 maxAttempts).1 ++
            [.update downloadingWrite, .downloadCall]) ++
            [.update (errorWrite msg)]) := by
      rw [show handleStartParse ⟨.ok taskId, polls, .thrown msg, md, del,
          nowStr⟩ =
        [.update parsingMark, .parseCall, .update (submitWrite taskId)] ++
          ((pollLoop taskId polls 0 maxAttempts).1 ++
            afterLoop taskId ⟨.ok taskId, polls, .thrown msg, md, del, nowStr⟩
              (pollLoop taskId polls 0 maxAttempts).2) from rfl, hexit, hafter]
      simp
    refine failsWith_intro _ taskId msg (k + 1) _ htrace ?_ ?_ ?_
    · rw [List.countP_append, hcount]
      rw [show List.countP (fun a => a == Action.pollCall)
        [Action.update downloadingWrite, Action.downloadCall] = 0 from rfl]
      omega
    · rw [List.countP_append]
      have h0 : (pollLoop taskId polls 0 maxAttempts).1.countP
          (fun a => a == Action.parseCall) = 0 := by
        rw [List.countP_eq_zero]
        intro a ha
        rcases hmem a ha with rfl | ⟨u, rfl, _⟩ <;> simp
      rw [h0]
      rfl
    · intro a ha
      rcases List.mem_append.mp ha with h1 | h1
      · exact safe_of_loopmem a (hmem a h1)
      · rcases List.mem_cons.mp h1 with heq | h1
        · subst heq
          refine ⟨fun u h2 => ?_, fun h2 => Action.noConfusion h2⟩
          cases h2
          rfl
        · rcases List.mem_cons.mp h1 with heq | h1
          · subst heq
            exact ⟨fun u h2 => Action.noConfusion h2,
              fun h2 => Action.noConfusion h2⟩
          · simp at h1
  · -- (5) materialization: getMarkdown throws
    intro taskId polls k r msg del nowStr hk hpend hfail hdone hzip
    obtain ⟨hcount, hexit, hmem⟩ := pollLoop_fail taskId polls k r hk hpend
      hfail (Or.inl hdone) maxAttempts 0 (by rfl) (by omega)
    have herr : ¬ r.state = .error := by
      rw [hdone]
      exact fun hcon => TaskState.noConfusion hcon
    have hafter : afterLoop taskId ⟨.ok taskId, polls, .ok (), .thrown msg,
        del, nowStr⟩ (.finished r) =
        [.update downloadingWrite, .downloadCall, .markdownCall,
          .update (errorWrite msg)] := by
      rw [afterLoop, if_neg herr, if_pos hzip]
    have htrace : handleStartParse ⟨.ok taskId, polls, .ok (), .thrown msg,
        del, nowStr⟩ =
        [.update parsingMark, .parseCall, .update (submitWrite taskId)] ++
          (((pollLoop taskId polls 0 maxAttempts).1 ++
            [.update downloadingWrite, .downloadCall, .markdownCall]) ++
            [.update (errorWrite msg)]) := by
      rw [show handleStartParse ⟨.ok taskId, polls, .ok (), .thrown msg, del,
          nowStr⟩ =
        [.update parsingMark, .parseCall, .update (submitWrite taskId)] ++
          ((pollLoop taskId polls 0 maxAttempts).1 ++
            afterLoop taskId ⟨.ok taskId, polls, .ok (), .thrown msg, del,
              nowStr⟩
              (pollLoop taskId polls 0 maxAttempts).2) from rfl, hexit, hafter]
      simp
    refine failsWith_intro _ taskId msg (k + 1) _ htrace ?_ ?_ ?_
    · rw [List.countP_append, hcount]
      rw [show List.countP (fun a => a == Action.pollCall)
        [Action.update downloadingWrite, Action.downloadCall,
          Action.markdownCall] = 0 from rfl]
      omega
    · rw [List.countP_append]
      have h0 : (pollLoop taskId polls 0 maxAttempts).1.countP
          (fun a => a == Action.parseCall) = 0 := by
        rw [List.countP_eq_zero]
        intro a ha
        rcases hmem a ha with rfl | ⟨u, rfl, _⟩ <;> simp
      rw [h0]
      rfl
    · intro a ha
      rcases List.mem_append.mp ha with h1 | h1
      · exact safe_of_loopmem a (hmem a h1)
      · rcases List.mem_cons.mp h1 with heq | h1
        · subst heq
          refine ⟨fun u h2 => ?_, fun h2 => Action.noConfusion h2⟩
          cases h2
          rfl
        · rcases List.mem_cons.mp h1 with heq | h1
          · subst heq
            exact ⟨fun u h2 => Action.noConfusion h2,
              fun h2 => Action.noConfusion h2⟩
          · rcases List.mem_cons.mp h1 with heq | h1
            · subst heq
              exact ⟨fun u h2 => Action.noConfusion h2,
                fun h2 => Action.noConfusion h2⟩
            · simp at h1

/-- Witness for the amended C4: a job that fails on the third poll is
polled exactly three times and the record ends with `status = error`
and the reported reason; a thrown submission ends the run with zero
polls and the exception message recorded. -/
theorem claim_C4_amended_witness :
    ((handleStartParse ⟨.ok "task-9", thirdPollFails, .ok (), .ok "# md",
        .ok (), "2026-02-02"⟩).countP
      (fun a => a == Action.pollCall) = 3 ∧
    (∃ q, getPaperByOssKey "papers/a.pdf"
        (runStore "papers/a.pdf" [paperA]
          (handleStartParse ⟨.ok "task-9", thirdPollFails, .ok (), .ok "# md",
            .ok (), "2026-02-02"⟩)) = some q ∧
      q.status = .error ∧ q.error = some "解析引擎崩溃")) ∧
    failsWith ⟨.thrown "network down", thirdPollFails, .ok (), .ok "# md",
      .ok (), "2026-02-02"⟩ 0 "network down" := by
  obtain ⟨h1, h2, _, _, _⟩ := claim_C4_amended
  obtain ⟨hc, _, _, hstore⟩ := h1 "task-9" thirdPollFails 2 failedResp
    "解析引擎崩溃" (.ok ()) (.ok "# md") (.ok ()) "2026-02-02" (by decide)
    (fun i hi => ⟨pendingResp, by rw [thirdPollFails, if_pos hi], by decide,
      by decide⟩)
    (by rfl) (by decide) (by decide) (by decide)
  exact ⟨⟨hc, hstore "papers/a.pdf" [paperA] paperA (by decide)⟩,
    h2 "network down" thirdPollFails (.ok ()) (.ok "# md") (.ok ())
      "2026-02-02"⟩

/-- What the batch loop of `handleStartAllAnalysis` does per paper, in
order: mark the key as processing and await `startAnalysis`; a success
is followed by the 500 ms pacing delay, a failure sets the page error to
a message naming that paper and its reason, and the loop continues. -/
inductive AnalysisEvent where
  | startCall (ossKey : String)
  | delay
  | errorSet (filename msg : String)
deriving DecidableEq

/-- The serial batch loop of `handleStartAllAnalysis` over the fetched
`extracted` papers, with `startAnalysis` outcomes given by an oracle
keyed on `oss_key`. -/
def handleStartAllAnalysis (outcome : String → CallResult Unit) :
    List PaperInfo → List AnalysisEvent
  | [] => []
  | paper :: rest =>
    (AnalysisEvent.startCall paper.oss_key ::
      match outcome paper.oss_key with
      | .ok _ => [AnalysisEvent.delay]
      | .thrown msg => [AnalysisEvent.errorSet paper.filename msg]) ++
    handleStartAllAnalysis outcome rest

/-- The keys passed to `startAnalysis`, in order. -/
def startedKeys (events : List AnalysisEvent) : List String :=
  events.filterMap (fun e =>
    match e with
    | .startCall ossKey => some ossKey
    | _ => none)

/-- Claim C5: the batch start operation starts exactly one analysis per
eligible paper, in order, regardless of failures (so a failure on paper
`i` never prevents papers `i+1 … n` from being started); each successful
start is immediately followed by the 500 ms pacing delay; a failed start
is recorded with a message naming exactly that paper and its reason; and
every recorded failure message comes from a paper whose start actually
failed with that reason. -/
theorem claim_C5_batch (outcome : String → CallResult Unit)
    (papers : List PaperInfo) :
    startedKeys (handleStartAllAnalysis outcome papers) =
      papers.map (fun p => p.oss_key) ∧
    (∀ p ∈ papers, ∀ msg, outcome p.oss_key = .thrown msg →
      AnalysisEvent.errorSet p.filename msg ∈
        handleStartAllAnalysis outcome papers) ∧
    (∀ f m, AnalysisEvent.errorSet f m ∈ handleStartAllAnalysis outcome papers →
      ∃ p ∈ papers, p.filename = f ∧ outcome p.oss_key = .thrown m) ∧
    (∀ p ∈ papers, outcome p.oss_key = .ok () →
      ∃ pre post, handleStartAllAnalysis outcome papers =
        pre ++ AnalysisEvent.startCall p.oss_key :: AnalysisEvent.delay ::
          post) := by
  induction papers with
  | nil =>
    refine ⟨rfl, ?_, ?_, ?_⟩
    · intro p hp; simp at hp
    · intro f m hm; simp [handleStartAllAnalysis] at hm
    · intro p hp; simp at hp
  | cons q rest ih =>
    obtain ⟨ihk, ihrec, ihsrc, ihdelay⟩ := ih
    refine ⟨?_, ?_, ?_, ?_⟩
    · cases ho : outcome q.oss_key with
      | ok v =>
        cases v
        simp only [handleStartAllAnalysis, ho, startedKeys,
          List.filterMap_append, List.map_cons]
        rw [show List.filterMap (fun e =>
          match e with
          | AnalysisEvent.startCall ossKey => some ossKey
          | _ => none) (AnalysisEvent.startCall q.oss_key ::
          [AnalysisEvent.delay]) = [q.oss_key] from rfl]
        rw [show List.filterMap (fun e =>
          match e with
          | AnalysisEvent.startCall ossKey => some ossKey
          | _ => none) (handleStartAllAnalysis outcome rest) =
          startedKeys (handleStartAllAnalysis outcome rest) from rfl, ihk]
        rfl
      | thrown msg =>
        simp only [handleStartAllAnalysis, ho, startedKeys,
          List.filterMap_append, List.map_cons]
        rw [show List.filterMap (fun e =>
          match e with
          | AnalysisEvent.startCall ossKey => some ossKey
          | _ => none) (AnalysisEvent.startCall q.oss_key ::
          [AnalysisEvent.errorSet q.filename msg]) = [q.oss_key] from rfl]
        rw [show List.filterMap (fun e =>
          match e with
          | AnalysisEvent.startCall ossKey => some ossKey
          | _ => none) (handleStartAllAnalysis outcome rest) =
          startedKeys (handleStartAllAnalysis outcome rest) from rfl, ihk]
        rfl
    · intro p hp msg hmsg
      rcases List.mem_cons.mp hp with rfl | hp
      · rw [handleStartAllAnalysis, hmsg]
        simp
      · rw [handleStartAllAnalysis]
        exact List.mem_append_right _ (ihrec p hp msg hmsg)
    · intro f m hm
      rw [handleStartAllAnalysis] at hm
      rcases List.mem_append.mp hm with h3 | h3
      · cases ho : outcome q.oss_key with
        | ok v =>
          rw [ho] at h3
          rcases List.mem_cons.mp h3 with heq | h3
          · cases heq
          · rcases List.mem_cons.mp h3 with heq | h3
            · cases heq
            · simp at h3
        | thrown msg =>
          rw [ho] at h3
          rcases List.mem_cons.mp h3 with heq | h3
          · cases heq
          · rcases List.mem_cons.mp h3 with heq | h3
            · cases heq
              exact ⟨q, by simp, rfl, ho⟩
            · simp at h3
      · obtain ⟨p, hp, hpf, hpo⟩ := ihsrc f m h3
        exact ⟨p, by simp [hp], hpf, hpo⟩
    · intro p hp ho
      rcases List.mem_cons.mp hp with rfl | hp
      · refine ⟨[], handleStartAllAnalysis outcome rest, ?_⟩
        rw [handleStartAllAnalysis, ho]
        rfl
      · obtain ⟨pre, post, hsplit⟩ := ihdelay p hp ho
        cases hoq : outcome q.oss_key with
        | ok v =>
          refine ⟨AnalysisEvent.startCall q.oss_key :: AnalysisEvent.delay ::
            pre, post, ?_⟩
          rw [handleStartAllAnalysis, hoq, hsplit]
          rfl
        | thrown msg =>
          refine ⟨AnalysisEvent.startCall q.oss_key ::
            AnalysisEvent.errorSet q.filename msg :: pre, post, ?_⟩
          rw [handleStartAllAnalysis, hoq, hsplit]
          rfl

/-- A start-analysis oracle that fails only for `paperA`. -/
def failAOutcome (ossKey : String) : CallResult Unit :=
  if ossKey = "papers/a.pdf" then .thrown "rate limited" else .ok ()

/-- Witness for C5 at a concrete batch: with two eligible papers whose
first start fails, both papers are still started in order, the failure
is recorded against the first paper, and the second start is followed by
the pacing delay. -/
theorem claim_C5_witness :
    startedKeys (handleStartAllAnalysis failAOutcome [paperA, paperB]) =
      ["papers/a.pdf", "papers/b.pdf"] ∧
    AnalysisEvent.errorSet "a.pdf" "rate limited" ∈
      handleStartAllAnalysis failAOutcome [paperA, paperB] ∧
    (∃ pre post, handleStartAllAnalysis failAOutcome [paperA, paperB] =
      pre ++ AnalysisEvent.startCall "papers/b.pdf" :: AnalysisEvent.delay ::
        post) := by
  obtain ⟨hkeys, hrec, _, hdelay⟩ := claim_C5_batch failAOutcome [paperA, paperB]
  refine ⟨hkeys, ?_, ?_⟩
  · exact hrec paperA (by simp) "rate limited" (by rfl)
  · exact hdelay paperB (by simp) (by rfl)

/-- Modelled from the spec: the backend Task Registry (the FastAPI
service under `apps/src`, whose Python sources are not in this tree;
only its HTTP callers — `startExtraction` / `startAnalysis` in
`playground/src/api/extraction.ts` — and the §4.5 contract of the spec
are).
Per §2 and §4.5 it is an in-memory map of `doc_key` → task handle;
`tryAcquire` atomically succeeds exactly when no handle for the key
exists, otherwise reports `busy`. -/
structure TaskRegistry where
  active : List String
deriving DecidableEq

/-- Result of `tryAcquire`: a handle was acquired, or the key is busy. -/
inductive AcquireResult where
  | acquired
  | busy
deriving DecidableEq

/-- Modelled from the spec: `tryAcquire(doc_key) -> handle | busy`, one
atomic step. -/
def tryAcquire (reg : TaskRegistry) (docKey : String) :
    AcquireResult × TaskRegistry :=
  if docKey ∈ reg.active then (.busy, reg)
  else (.acquired, { active := docKey :: reg.active })

/-- Modelled from the spec: `release(doc_key)` removes the handle of the
key. -/
def release (reg : TaskRegistry) (docKey : String) : TaskRegistry :=
  { active := reg.active.filter (fun k => k != docKey) }

/-- A number `n` of racing `tryAcquire` calls for the same key: because each call is
atomic, any interleaving is some serialization, i.e. `n` consecutive
steps.  Returns the results in order and the final registry. -/
def raceAcquires (reg : TaskRegistry) (docKey : String) :
    Nat → List AcquireResult × TaskRegistry
  | 0 => ([], reg)
  | n + 1 =>
    let step := tryAcquire reg docKey
    let rest := raceAcquires step.2 docKey n
    (step.1 :: rest.1, rest.2)

theorem raceAcquires_busy (docKey : String) :
    ∀ (n : Nat) (reg : TaskRegistry), docKey ∈ reg.active →
    (raceAcquires reg docKey n).1 = List.replicate n .busy ∧
    (raceAcquires reg docKey n).2 = reg := by
  intro n
  induction n with
  | zero => intro reg _; exact ⟨rfl, rfl⟩
  | succ m ih =>
    intro reg hmem
    rw [raceAcquires]
    simp only [tryAcquire, if_pos hmem]
    obtain ⟨h1, h2⟩ := ih reg hmem
    rw [List.replicate_succ]
    exact ⟨by rw [h1], h2⟩

/-- Claim C2 (spec-modelled): starting from any registry state in which
`doc_key` holds no handle, when `n ≥ 1` concurrent `tryAcquire` calls
for that key race, exactly the first serialized caller acquires the
handle and every other caller receives `busy`; afterwards the registry
holds exactly one entry for the key, so no duplicate orchestration is
started. -/
theorem claim_C2_tryAcquire (reg : TaskRegistry) (docKey : String) (n : Nat)
    (hfree : docKey ∉ reg.active) (hn : 0 < n) :
    (raceAcquires reg docKey n).1 =
      .acquired :: List.replicate (n - 1) .busy ∧
    ((raceAcquires reg docKey n).1.count .acquired) = 1 ∧
    ((raceAcquires reg docKey n).2.active.count docKey) = 1 := by
  cases n with
  | zero => exact absurd hn (by simp)
  | succ m =>
    have hstep : tryAcquire reg docKey =
        (.acquired, { active := docKey :: reg.active }) := by
      rw [tryAcquire, if_neg hfree]
    have hmem : docKey ∈ ({ active := docKey :: reg.active } :
        TaskRegistry).active := by simp
    obtain ⟨hbusy, hreg⟩ := raceAcquires_busy docKey m
      { active := docKey :: reg.active } hmem
    have htrace : raceAcquires reg docKey (m + 1) =
        (.acquired :: (raceAcquires { active := docKey :: reg.active }
          docKey m).1,
         (raceAcquires { active := docKey :: reg.active } docKey m).2) := by
      rw [raceAcquires, hstep]
    refine ⟨?_, ?_, ?_⟩
    · rw [htrace, hbusy]
      simp
    · rw [htrace, hbusy]
      rw [List.count_cons]
      have : List.count AcquireResult.acquired
          (List.replicate m AcquireResult.busy) = 0 := by
        rw [List.count_eq_zero]
        intro hc
        have := List.eq_of_mem_replicate hc
        cases this
      rw [this]
      rfl
    · rw [htrace, hreg]
      rw [show ({ active := docKey :: reg.active } :
        TaskRegistry).active = docKey :: reg.active from rfl]
      rw [List.count_cons]
      have : reg.active.count docKey = 0 := by
        rw [List.count_eq_zero]
        exact hfree
      rw [this]
      simp

/-- Witness for C2: two racing acquisitions on an empty registry — one
success, one `busy`, one registry entry. -/
theorem claim_C2_witness :
    (raceAcquires ⟨[]⟩ "papers/a.pdf" 2).1 =
      [.acquired, .busy] ∧
    ((raceAcquires ⟨[]⟩ "papers/a.pdf" 2).1.count .acquired) = 1 ∧
    ((raceAcquires ⟨[]⟩ "papers/a.pdf" 2).2.active.count "papers/a.pdf") = 1 := by
  have h := claim_C2_tryAcquire ⟨[]⟩ "papers/a.pdf" 2 (by simp) (by decide)
  exact ⟨by rw [h.1]; rfl, h.2.1, h.2.2⟩
